import Mathlib

/-
Verification of the SF2000 memory subsystem (Src/Memory/Memory_SF2000.c):
the fixed-size pool allocator (sf2000_memory_pools_init, sf2000_malloc_fast,
sf2000_free_fast), the cache-aligned bulk mover (sf2000_memcpy_aligned,
sf2000_memset_aligned, sf2000_memcpy_burst), the buffered ROM loader
(sf2000_rom_load_optimized) and sf2000_memory_reset.

Modelling conventions:
- Addresses and 32-bit machine integers are natural numbers; the address 0
  stands for the C null pointer.  Where 32-bit overflow can matter the
  arithmetic is taken modulo 2^32 explicitly.
- Byte memory is a function from addresses to byte values.
- External libc calls (malloc, fopen, fread) are parametrized by explicit
  oracle values/environments, since their outcomes are inputs of the code.
-/

namespace SF2000

/-- Cache line size in bytes (SF2000_CACHE_LINE_SIZE in Memory_SF2000.h). -/
def SF2000_CACHE_LINE_SIZE : ℕ := 32

/-- Maximum accepted ROM file size, two MiB (SF2000_MAX_ROM_SIZE). -/
def SF2000_MAX_ROM_SIZE : ℕ := 0x200000

/-- Number of allocation pools (SF2000_POOL_COUNT). -/
def SF2000_POOL_COUNT : ℕ := 8

/-- Pool block sizes, the SF2000_POOL_SIZES configuration table. -/
def pool_sizes : List ℕ := [32, 64, 128, 256, 512, 1024, 2048, 4096]

/-- Blocks per pool, the blocks_per_pool table in sf2000_memory_pools_init. -/
def blocks_per_pool : List ℕ := [256, 128, 64, 32, 16, 8, 4, 2]

/-- Round an address up to the next cache-line boundary: the C expression
addr = (addr + SF2000_CACHE_LINE_SIZE - 1) AND-NOT (SF2000_CACHE_LINE_SIZE - 1)
computed on a 32-bit unsigned address (masking the low five bits is division
and multiplication by 32). -/
def sf2000_align_up (a : ℕ) : ℕ := (a + 31) % 2 ^ 32 / 32 * 32

/-! ## Byte memory and the bulk mover -/

/-- Byte-addressed memory. -/
def Mem : Type := ℕ → ℕ

/-- Write one byte. -/
def memUpd (m : Mem) (a v : ℕ) : Mem := fun x => if x = a then v else m x

/-- Read n consecutive bytes starting at an address. -/
def readBytes (m : Mem) : ℕ → ℕ → List ℕ
  | _, 0 => []
  | a, n + 1 => m a :: readBytes m (a + 1) n

/-- Store a list of bytes at consecutive addresses, first byte first. -/
def storeBytes : Mem → ℕ → List ℕ → Mem
  | m, _, [] => m
  | m, a, v :: vs => storeBytes (memUpd m a v) (a + 1) vs

/-- One 32-bit word copy, a load of four bytes followed by a store of four
bytes (the statement star-dst32++ = star-src32++). -/
def copyWord (m : Mem) (d s : ℕ) : Mem := storeBytes m d (readBytes m s 4)

/-- The word-copy loop of sf2000_memcpy_aligned: k iterations of copyWord with
both pointers advancing by 4 each time. -/
def copyWords : Mem → ℕ → ℕ → ℕ → Mem
  | m, _, _, 0 => m
  | m, d, s, k + 1 => copyWords (copyWord m d s) (d + 4) (s + 4) k

/-- A forward byte-by-byte copy loop, modelling both the remainder loop of
sf2000_memcpy_aligned and the libc memcpy fallback. -/
def copyBytes : Mem → ℕ → ℕ → ℕ → Mem
  | m, _, _, 0 => m
  | m, d, s, k + 1 => copyBytes (memUpd m d (m s)) (d + 1) (s + 1) k

/-- sf2000_memcpy_aligned: if both pointers are 4-byte aligned, copy
size >> 2 words and then size AND 3 remainder bytes; otherwise fall back to a
byte-wise memcpy. -/
def sf2000_memcpy_aligned (m : Mem) (d s n : ℕ) : Mem :=
  if d % 4 = 0 ∧ s % 4 = 0 then
    copyBytes (copyWords m d s (n / 4)) (d + 4 * (n / 4)) (s + 4 * (n / 4)) (n % 4)
  else
    copyBytes m d s n

/-- Store a 32-bit word at an address as its four bytes, low byte first
(little-endian MIPS). -/
def storeWord (m : Mem) (a w : ℕ) : Mem :=
  storeBytes m a [w % 256, w / 2 ^ 8 % 256, w / 2 ^ 16 % 256, w / 2 ^ 24 % 256]

/-- The word-store loop of sf2000_memset_aligned. -/
def fillWords : Mem → ℕ → ℕ → ℕ → Mem
  | m, _, _, 0 => m
  | m, d, w, k + 1 => fillWords (storeWord m d w) (d + 4) w k

/-- A forward byte-by-byte fill loop, modelling both the remainder loop of
sf2000_memset_aligned and the libc memset fallback. -/
def fillBytes : Mem → ℕ → ℕ → ℕ → Mem
  | m, _, _, 0 => m
  | m, d, v, k + 1 => fillBytes (memUpd m d v) (d + 1) v k

/-- sf2000_memset_aligned: build the replicated 32-bit pattern from the byte
value; if the destination is 4-byte aligned, store the pattern in words and
fill the remainder bytes, else fall back to a byte-wise memset. -/
def sf2000_memset_aligned (m : Mem) (d v n : ℕ) : Mem :=
  let pattern := (v <<< 24) ||| (v <<< 16) ||| (v <<< 8) ||| v
  if d % 4 = 0 then
    fillBytes (fillWords m d pattern (n / 4)) (d + 4 * (n / 4)) v (n % 4)
  else
    fillBytes m d v n

/-- The unrolled eight-word burst body of sf2000_memcpy_burst
(dst32[0] = src32[0]; ...; dst32[7] = src32[7]). -/
def copyBurst (m : Mem) (d s : ℕ) : Mem :=
  copyWord (copyWord (copyWord (copyWord (copyWord (copyWord (copyWord (copyWord
    m d s) (d + 4) (s + 4)) (d + 8) (s + 8)) (d + 12) (s + 12)) (d + 16) (s + 16))
    (d + 20) (s + 20)) (d + 24) (s + 24)) (d + 28) (s + 28)

/-- The burst loop: burst_count iterations, both pointers advancing by 32. -/
def copyBursts : Mem → ℕ → ℕ → ℕ → Mem
  | m, _, _, 0 => m
  | m, d, s, k + 1 => copyBursts (copyBurst m d s) (d + 32) (s + 32) k

/-- sf2000_memcpy_burst: for sizes of at least one cache line with both
pointers 4-byte aligned, copy size / 32 bursts and hand the size % 32
remainder to sf2000_memcpy_aligned (a no-op when the remainder is zero);
otherwise delegate entirely to sf2000_memcpy_aligned. -/
def sf2000_memcpy_burst (m : Mem) (d s n : ℕ) : Mem :=
  if SF2000_CACHE_LINE_SIZE ≤ n ∧ d % 4 = 0 ∧ s % 4 = 0 then
    sf2000_memcpy_aligned (copyBursts m d s (n / 32)) (d + 32 * (n / 32))
      (s + 32 * (n / 32)) (n % 32)
  else
    sf2000_memcpy_aligned m d s n

/-- Specification-side naive byte-wise copy of n bytes (the contents the
destination holds after a plain disjoint byte copy). -/
def naiveCopy (m : Mem) (d s n : ℕ) : Mem :=
  fun a => if d ≤ a ∧ a < d + n then m (s + (a - d)) else m a

/-- Specification-side fill of n bytes with a value. -/
def naiveFill (m : Mem) (d v n : ℕ) : Mem :=
  fun a => if d ≤ a ∧ a < d + n then v else m a

/-! ## The pool allocator -/

/-- One allocation pool (struct SF2000_MemoryPool).  pool_memory is the base
address of the backing storage with 0 standing for a null pointer; free_list
is the contents of the free-index array, with none standing for a null
free_list pointer. -/
structure SF2000_MemoryPool where
  pool_memory : ℕ
  block_size : ℕ
  block_count : ℕ
  free_count : ℕ
  free_list : Option (List ℕ)
deriving DecidableEq

/-- A default pool value used only as the List.getD default. -/
def dPool : SF2000_MemoryPool := ⟨0, 0, 0, 0, none⟩

/-- Outcome of sf2000_malloc_fast: a block address taken from a pool, a
delegation to the fallback malloc, or a dereference of a null free_list
pointer (what the C does when it selects a pool whose reservation failed). -/
inductive AllocResult where
  | poolBlock (addr : ℕ)
  | fallback
  | nullDeref
deriving DecidableEq

/-- sf2000_malloc_fast: scan the pools in order; at the first pool with
size ≤ block_size and free_count > 0, decrement free_count and read
free_list[free_count] to get the block index, returning
pool_memory + index * block_size; if no pool matches, fall back to malloc.
Reading the free list when its pointer is null is the nullDeref outcome. -/
def sf2000_malloc_fast : List SF2000_MemoryPool → ℕ → List SF2000_MemoryPool × AllocResult
  | [], _ => ([], .fallback)
  | p :: ps, sz =>
    if sz ≤ p.block_size ∧ 0 < p.free_count then
      match p.free_list with
      | none => ({ p with free_count := p.free_count - 1 } :: ps, .nullDeref)
      | some fl =>
        ({ p with free_count := p.free_count - 1 } :: ps,
          .poolBlock (p.pool_memory + fl.getD (p.free_count - 1) 0 * p.block_size))
    else
      let r := sf2000_malloc_fast ps sz
      (p :: r.1, r.2)

/-- The ownership test of sf2000_free_fast:
pool_memory ≤ ptr < pool_memory + block_size * block_count. -/
def InSpan (p : SF2000_MemoryPool) (a : ℕ) : Prop :=
  p.pool_memory ≤ a ∧ a < p.pool_memory + p.block_size * p.block_count

instance (p : SF2000_MemoryPool) (a : ℕ) : Decidable (InSpan p a) :=
  inferInstanceAs (Decidable (_ ∧ _))

/-- The pool scan of sf2000_free_fast: at the first pool owning the pointer,
compute index = (ptr - base) / block_size and push it onto the free list, but
only when free_count < block_count (otherwise the push is silently dropped);
if no pool owns the pointer the call falls through to libc free, which leaves
every pool unchanged. -/
def sf2000_free_fast_scan : List SF2000_MemoryPool → ℕ → List SF2000_MemoryPool
  | [], _ => []
  | p :: ps, ptr =>
    if InSpan p ptr then
      if p.free_count < p.block_count then
        { p with
          free_list := p.free_list.map
            (fun fl => fl.set p.free_count ((ptr - p.pool_memory) / p.block_size)),
          free_count := p.free_count + 1 } :: ps
      else
        p :: ps
    else
      p :: sf2000_free_fast_scan ps ptr

/-- sf2000_free_fast: a no-op on a null pointer, otherwise the pool scan. -/
def sf2000_free_fast (pools : List SF2000_MemoryPool) (ptr : ℕ) : List SF2000_MemoryPool :=
  if ptr = 0 then pools else sf2000_free_fast_scan pools ptr

/-- Initialize one pool given the raw result of its backing-storage malloc
(none when malloc returned null).  The C sets block_size, block_count and
free_count = block_count unconditionally, then on malloc success aligns the
base up to the cache line and builds the free list 0, 1, ..., block_count-1;
on failure the base and the free list stay null.  The free-list malloc is
modelled as succeeding whenever the backing-storage malloc does. -/
def pool_init (bs bc : ℕ) (mres : Option ℕ) : SF2000_MemoryPool :=
  { pool_memory := match mres with | none => 0 | some a => sf2000_align_up a
    block_size := bs
    block_count := bc
    free_count := bc
    free_list := mres.map (fun _ => List.range bc) }

/-- sf2000_memory_pools_init, parametrized by the eight backing-storage malloc
results. -/
def sf2000_memory_pools_init (ms : List (Option ℕ)) : List SF2000_MemoryPool :=
  (List.zip (List.zip pool_sizes blocks_per_pool) ms).map
    (fun x => pool_init x.1.1 x.1.2 x.2)

/-! ## Call sequences and reachable allocator states -/

/-- One external call into the allocator. -/
inductive MemOp where
  | alloc (sz : ℕ)
  | free (ptr : ℕ)

/-- Pool-state effect of one call (the returned value is discarded). -/
def runOp (pools : List SF2000_MemoryPool) : MemOp → List SF2000_MemoryPool
  | .alloc sz => (sf2000_malloc_fast pools sz).1
  | .free ptr => sf2000_free_fast pools ptr

/-- Pool-state effect of a call sequence. -/
def runOps (pools : List SF2000_MemoryPool) (ops : List MemOp) : List SF2000_MemoryPool :=
  ops.foldl runOp pools

/-- Address of block i of a pool. -/
def blockAddr (p : SF2000_MemoryPool) (i : ℕ) : ℕ := p.pool_memory + i * p.block_size

/-- a is the address of one of p's blocks. -/
def IsBlockAddr (p : SF2000_MemoryPool) (a : ℕ) : Prop :=
  ∃ i, i < p.block_count ∧ a = blockAddr p i

/-- The backing-storage spans of two pools do not overlap (what malloc
guarantees for two successful reservations). -/
def Sep (p q : SF2000_MemoryPool) : Prop :=
  p.pool_memory + p.block_size * p.block_count ≤ q.pool_memory ∨
  q.pool_memory + q.block_size * q.block_count ≤ p.pool_memory

instance (p q : SF2000_MemoryPool) : Decidable (Sep p q) :=
  inferInstanceAs (Decidable (_ ∨ _))

/-- Effect of one Allocate call on the pools together with the set of
outstanding (live) pool-block pointers. -/
def allocStep (pools : List SF2000_MemoryPool) (live : Finset ℕ) (sz : ℕ) :
    List SF2000_MemoryPool × Finset ℕ :=
  match sf2000_malloc_fast pools sz with
  | (ps, .poolBlock a) => (ps, insert a live)
  | (ps, _) => (ps, live)

/-- Allocator states reachable from a successfully initialized allocator
(every backing-storage reservation succeeded, on a 32-bit address space, with
malloc returning separated spans) by Allocate and Free calls in which Free is
only ever passed null, a currently outstanding block pointer, or a pointer
outside every pool's span (a fallback-malloc pointer) — hence no pointer is
freed twice.  The Finset records the outstanding pool-block pointers. -/
inductive Reach : List SF2000_MemoryPool → Finset ℕ → Prop where
  | init (ms : List ℕ) (h8 : ms.length = 8)
      (hm : ∀ m ∈ ms, 0 < m ∧ m + 31 < 2 ^ 32)
      (hsep : (sf2000_memory_pools_init (ms.map some)).Pairwise Sep) :
      Reach (sf2000_memory_pools_init (ms.map some)) ∅
  | alloc (pools : List SF2000_MemoryPool) (live : Finset ℕ) (sz : ℕ)
      (h : Reach pools live) :
      Reach (allocStep pools live sz).1 (allocStep pools live sz).2
  | freeNull (pools : List SF2000_MemoryPool) (live : Finset ℕ)
      (h : Reach pools live) :
      Reach (sf2000_free_fast pools 0) live
  | freeLive (pools : List SF2000_MemoryPool) (live : Finset ℕ) (ptr : ℕ)
      (hp : ptr ∈ live) (h : Reach pools live) :
      Reach (sf2000_free_fast pools ptr) (live.erase ptr)
  | freeOutside (pools : List SF2000_MemoryPool) (live : Finset ℕ) (ptr : ℕ)
      (hp : ptr ∉ live) (ho : ∀ p ∈ pools, ¬ InSpan p ptr) (h : Reach pools live) :
      Reach (sf2000_free_fast pools ptr) live

/-- Number of blocks of pool p whose addresses are currently allocated
(outstanding). -/
def allocatedCount (p : SF2000_MemoryPool) (live : Finset ℕ) : ℕ :=
  ((Finset.range p.block_count).filter (fun i => blockAddr p i ∈ live)).card

/-- Per-pool well-formedness tying the free list to the live pointer set:
the active prefix of the free list has no duplicates, holds only valid block
indices, and lists exactly the blocks whose addresses are not outstanding. -/
def PoolInv (live : Finset ℕ) (p : SF2000_MemoryPool) : Prop :=
  0 < p.block_size ∧ 0 < p.pool_memory ∧ p.free_count ≤ p.block_count ∧
  ∃ fl, p.free_list = some fl ∧ fl.length = p.block_count ∧
    (fl.take p.free_count).Nodup ∧
    (∀ i ∈ fl.take p.free_count, i < p.block_count) ∧
    (∀ i, i < p.block_count → (i ∈ fl.take p.free_count ↔ blockAddr p i ∉ live))

/-- Global allocator invariant. -/
def Inv (pools : List SF2000_MemoryPool) (live : Finset ℕ) : Prop :=
  (∀ p ∈ pools, PoolInv live p) ∧ pools.Pairwise Sep ∧
  (∀ a ∈ live, ∃ p ∈ pools, IsBlockAddr p a)

/-! ## The ROM loader -/

/-- External environment of sf2000_rom_load_optimized: the file behind fopen
(none when fopen fails, otherwise the byte contents), the fallback libc malloc
(returning 0 for null), and for each fread call in chunk order the number of
bytes the stream yields (the call reads min of that and the requested count). -/
structure LoadEnv where
  file : Option (List ℕ)
  mallocExt : ℕ → ℕ
  freadRaw : ℕ → ℕ

/-- sf2000_malloc_fast as the loader sees it: a pool block address, or the
fallback malloc's result.  The nullDeref outcome (a crash in C) is mapped to
the null address; the loader theorems assume well-formed pools, where it
cannot arise. -/
def mallocFastExt (env : LoadEnv) (pools : List SF2000_MemoryPool) (sz : ℕ) :
    List SF2000_MemoryPool × ℕ :=
  match sf2000_malloc_fast pools sz with
  | (ps, .poolBlock a) => (ps, a)
  | (ps, .fallback) => (ps, env.mallocExt sz)
  | (ps, .nullDeref) => (ps, 0)

/-- The chunked read loop of sf2000_rom_load_optimized.  Each iteration reads
to_read = min(remaining, 8192) bytes at file position pos into address
w + pos; a short fread aborts with failure after writing what was read.  The
fuel argument only bounds the number of iterations: every iteration consumes
at least one remaining byte, so fuel = remaining at the top level is enough
and the fuel-exhaustion branch is never taken. -/
def readLoopF (env : LoadEnv) (bytes : List ℕ) :
    ℕ → Mem → ℕ → ℕ → ℕ → ℕ → Mem × Bool
  | _, mem, _, _, 0, _ => (mem, true)
  | 0, mem, _, _, _ + 1, _ => (mem, false)
  | fuel + 1, mem, w, pos, rem + 1, k =>
    let toRead := min (rem + 1) 8192
    let actually := min (env.freadRaw k) toRead
    let mem2 := storeBytes mem (w + pos) ((bytes.drop pos).take actually)
    if actually = toRead then
      readLoopF env bytes fuel mem2 w (pos + toRead) (rem + 1 - toRead) (k + 1)
    else
      (mem2, false)

/-- Some fread call of a length-L load comes up short: chunk j (at file
position 8192 * j) yields fewer than the min(L - 8192 * j, 8192) bytes asked
for.  (The bound j < L only serves decidability; it is implied.) -/
def hasShortRead (env : LoadEnv) (L : ℕ) : Prop :=
  ∃ j < L, 8192 * j < L ∧ env.freadRaw j < min (L - 8192 * j) 8192

instance (env : LoadEnv) (L : ℕ) : Decidable (hasShortRead env L) :=
  inferInstanceAs (Decidable (∃ j < L, _ ∧ _))

/-- Result of the loader: final pool state, final memory, returned pointer
(0 for null) and the value stored through the size out-parameter. -/
structure LoadResult where
  pools : List SF2000_MemoryPool
  mem : Mem
  ptr : ℕ
  size : ℕ

/-- The part of sf2000_rom_load_optimized after a successful fopen, for a file
with the given bytes: fail on a length of 0 (the C checks file_size ≤ 0 on a
long) or above SF2000_MAX_ROM_SIZE; request length + SF2000_CACHE_LINE_SIZE
bytes from sf2000_malloc_fast and fail if that is null; align the buffer up to
the cache line; read the file in 8 KiB chunks, and on any short read release
the buffer with sf2000_free_fast and fail; on success return the aligned
pointer and the exact file length. -/
def sf2000_rom_load_body (env : LoadEnv) (pools : List SF2000_MemoryPool)
    (mem : Mem) (bytes : List ℕ) : LoadResult :=
  let file_size := bytes.length
  if file_size = 0 ∨ SF2000_MAX_ROM_SIZE < file_size then ⟨pools, mem, 0, 0⟩
  else
    let r1 := mallocFastExt env pools (file_size + SF2000_CACHE_LINE_SIZE)
    if r1.2 = 0 then ⟨r1.1, mem, 0, 0⟩
    else
      let aligned := sf2000_align_up r1.2
      let rd := readLoopF env bytes file_size mem aligned 0 file_size 0
      if rd.2 then ⟨r1.1, rd.1, aligned, file_size⟩
      else ⟨sf2000_free_fast r1.1 r1.2, rd.1, 0, 0⟩

/-- sf2000_rom_load_optimized: fail when fopen fails, otherwise run the body
on the opened file's bytes. -/
def sf2000_rom_load_optimized (env : LoadEnv) (pools : List SF2000_MemoryPool)
    (mem : Mem) : LoadResult :=
  match env.file with
  | none => ⟨pools, mem, 0, 0⟩
  | some bytes => sf2000_rom_load_body env pools mem bytes

/-! ## ROM cache, slot state and reset -/

/-- struct SF2000_RomInfo (padding bytes omitted). -/
structure SF2000_RomInfo where
  rom_data : ℕ
  rom_size : ℕ
  rom_crc32 : ℕ
  mapper_type : ℕ
  slot_config : ℕ
deriving DecidableEq

/-- The all-zero SF2000_RomInfo, what memset 0 produces. -/
def zeroRomInfo : SF2000_RomInfo := ⟨0, 0, 0, 0, 0⟩

/-- struct SF2000_SlotState (padding bytes omitted). -/
structure SF2000_SlotState where
  page_data : List ℕ
  page_flags : List ℕ
  mapper_regs : List ℕ
  slot_select : ℕ
  subslot_select : ℕ
  ram_config : ℕ
deriving DecidableEq

/-- The all-zero SF2000_SlotState, what memset 0 produces. -/
def zeroSlotState : SF2000_SlotState :=
  ⟨List.replicate 4 0, List.replicate 4 0, List.replicate 16 0, 0, 0, 0⟩

/-- The global state of the memory subsystem: the pool set, the 16-entry ROM
cache and the 4-entry slot-state array. -/
structure SF2000_MemoryState where
  pools : List SF2000_MemoryPool
  rom_cache : List SF2000_RomInfo
  slot_states : List SF2000_SlotState

/-- sf2000_memory_reset: memset the ROM cache and the slot states to zero,
touching nothing else (the comment in the source says keep pools allocated). -/
def sf2000_memory_reset (s : SF2000_MemoryState) : SF2000_MemoryState :=
  { s with
    rom_cache := List.replicate 16 zeroRomInfo
    slot_states := List.replicate 4 zeroSlotState }

/-! ## Concrete values used by witnesses and counterexamples -/

/-- Concrete backing-storage addresses for a fully successful initialization:
pool i gets base 65536 * (i + 1), already cache-line aligned; every span has
size block_size * block_count = 8192, so the spans are separated. -/
def msW : List ℕ := [65536, 131072, 196608, 262144, 327680, 393216, 458752, 524288]

/-- The pool set after a fully successful initialization at the msW bases. -/
def pools0 : List SF2000_MemoryPool := sf2000_memory_pools_init (msW.map some)

/-- Pools 1 to 7 of pools0 (used to spell out a first-fit witness). -/
def pools0tail : List SF2000_MemoryPool :=
  [pool_init 64 128 (some 131072), pool_init 128 64 (some 196608),
   pool_init 256 32 (some 262144), pool_init 512 16 (some 327680),
   pool_init 1024 8 (some 393216), pool_init 2048 4 (some 458752),
   pool_init 4096 2 (some 524288)]

/-- Pools 2 to 7 of pools0 (used to spell out scan witnesses). -/
def pools0rest : List SF2000_MemoryPool :=
  [pool_init 128 64 (some 196608), pool_init 256 32 (some 262144),
   pool_init 512 16 (some 327680), pool_init 1024 8 (some 393216),
   pool_init 2048 4 (some 458752), pool_init 4096 2 (some 524288)]

/-- Malloc results where pool 0's backing-storage reservation failed and the
others succeeded. -/
def msFail : List (Option ℕ) :=
  [none, some 131072, some 196608, some 262144, some 327680, some 393216,
   some 458752, some 524288]

/-- The double-free call sequence refuting unconditional free-list
distinctness: allocate both 4096-byte blocks, then free the first one twice. -/
def cexOps : List MemOp :=
  [.alloc 4096, .alloc 4096, .free 528384, .free 528384]

/-- A reachable pool state with every pool exhausted (every block handed
out). -/
def poolsExhausted : List SF2000_MemoryPool :=
  pools0.map (fun p => { p with free_count := 0 })

/-- Loader environment for the allocation-failure counterexample: a healthy
ten-byte file, fread always able to deliver a full chunk, but the fallback
malloc out of memory. -/
def envNoMem : LoadEnv := ⟨some (List.replicate 10 7), fun _ => 0, fun _ => 8192⟩

/-- Loader environment for a successful three-byte load. -/
def envOk : LoadEnv := ⟨some [1, 2, 3], fun _ => 0, fun _ => 8192⟩

/-- The all-zero memory. -/
def memZ : Mem := fun _ => 0

/-- A varied concrete memory for copy witnesses. -/
def memV : Mem := fun a => a % 256

/-! ## Bulk-mover lemmas -/
/-! ## Bulk-mover lemmas -/

theorem copyBytes_eq_naive (n : ℕ) :
    ∀ m d s, (s + n ≤ d ∨ d + n ≤ s) → copyBytes m d s n = naiveCopy m d s n := by
  induction n with
  | zero =>
    intro m d s _
    funext a
    simp only [copyBytes, naiveCopy]
    split_ifs <;> first | rfl | (exfalso; omega)
  | succ n ih =>
    intro m d s hd
    show copyBytes (memUpd m d (m s)) (d + 1) (s + 1) n = naiveCopy m d s (n + 1)
    rw [ih _ _ _ (by omega)]
    funext a
    simp only [naiveCopy, memUpd]
    split_ifs <;> first | rfl | (exfalso; omega) | (congr 1; omega)

theorem copyWord_eq (m : Mem) (d s : ℕ) : copyWord m d s = naiveCopy m d s 4 := by
  funext a
  simp only [copyWord, readBytes, storeBytes, memUpd, naiveCopy]
  split_ifs <;> first | rfl | (exfalso; omega) | (congr 1; omega)

theorem naiveCopy_split (m : Mem) (d s n1 n2 : ℕ)
    (hd : s + (n1 + n2) ≤ d ∨ d + (n1 + n2) ≤ s) :
    naiveCopy m d s (n1 + n2) = naiveCopy (naiveCopy m d s n1) (d + n1) (s + n1) n2 := by
  funext a
  simp only [naiveCopy]
  split_ifs <;> first | rfl | (exfalso; omega) | (congr 1; omega)

theorem copyWords_eq (k : ℕ) :
    ∀ m d s, (s + 4 * k ≤ d ∨ d + 4 * k ≤ s) → copyWords m d s k = naiveCopy m d s (4 * k) := by
  induction k with
  | zero =>
    intro m d s _
    funext a
    simp only [copyWords, naiveCopy]
    split_ifs <;> first | rfl | (exfalso; omega)
  | succ k ih =>
    intro m d s hd
    show copyWords (copyWord m d s) (d + 4) (s + 4) k = naiveCopy m d s (4 * (k + 1))
    rw [ih _ _ _ (by omega), copyWord_eq]
    have hs : (4 : ℕ) * (k + 1) = 4 + 4 * k := by ring
    rw [hs]
    exact (naiveCopy_split m d s 4 (4 * k) (by omega)).symm

theorem mcpy_eq_naive (m : Mem) (d s n : ℕ) (hd : s + n ≤ d ∨ d + n ≤ s) :
    sf2000_memcpy_aligned m d s n = naiveCopy m d s n := by
  unfold sf2000_memcpy_aligned
  by_cases ha : d % 4 = 0 ∧ s % 4 = 0
  · simp only [ha, if_true]
    rw [copyWords_eq (n / 4) _ _ _ (by omega), copyBytes_eq_naive (n % 4) _ _ _ (by omega)]
    have hn : n = 4 * (n / 4) + n % 4 := by omega
    rw [hn] at hd
    conv_rhs => rw [hn]
    exact (naiveCopy_split m d s (4 * (n / 4)) (n % 4) hd).symm
  · simp only [ha, if_false]
    exact copyBytes_eq_naive n m d s hd

theorem fillBytes_eq (n : ℕ) : ∀ m d v, fillBytes m d v n = naiveFill m d v n := by
  induction n with
  | zero =>
    intro m d v
    funext a
    simp only [fillBytes, naiveFill]
    split_ifs <;> first | rfl | (exfalso; omega)
  | succ n ih =>
    intro m d v
    show fillBytes (memUpd m d v) (d + 1) v n = naiveFill m d v (n + 1)
    rw [ih]
    funext a
    simp only [naiveFill, memUpd]
    split_ifs <;> first | rfl | (exfalso; omega)

theorem naiveFill_split (m : Mem) (d v n1 n2 : ℕ) :
    naiveFill m d v (n1 + n2) = naiveFill (naiveFill m d v n1) (d + n1) v n2 := by
  funext a
  simp only [naiveFill]
  split_ifs <;> first | rfl | (exfalso; omega)

theorem pattern_bytes :
    ∀ v, v < 256 →
      ((v <<< 24) ||| (v <<< 16) ||| (v <<< 8) ||| v) % 256 = v ∧
      ((v <<< 24) ||| (v <<< 16) ||| (v <<< 8) ||| v) / 2 ^ 8 % 256 = v ∧
      ((v <<< 24) ||| (v <<< 16) ||| (v <<< 8) ||| v) / 2 ^ 16 % 256 = v ∧
      ((v <<< 24) ||| (v <<< 16) ||| (v <<< 8) ||| v) / 2 ^ 24 % 256 = v := by
  set_option maxRecDepth 8000 in decide

theorem storeWord_pattern_eq (m : Mem) (d v : ℕ) (hv : v < 256) :
    storeWord m d ((v <<< 24) ||| (v <<< 16) ||| (v <<< 8) ||| v) = naiveFill m d v 4 := by
  obtain ⟨hb0, hb1, hb2, hb3⟩ := pattern_bytes v hv
  funext a
  simp only [storeWord, storeBytes, memUpd, naiveFill, hb0, hb1, hb2, hb3]
  split_ifs <;> first | rfl | (exfalso; omega)

theorem fillWords_eq (k : ℕ) :
    ∀ m d v, v < 256 →
      fillWords m d ((v <<< 24) ||| (v <<< 16) ||| (v <<< 8) ||| v) k =
        naiveFill m d v (4 * k) := by
  induction k with
  | zero =>
    intro m d v _
    funext a
    simp only [fillWords, naiveFill]
    split_ifs <;> first | rfl | (exfalso; omega)
  | succ k ih =>
    intro m d v hv
    simp only [fillWords]
    rw [ih _ _ _ hv, storeWord_pattern_eq m d v hv]
    have hs : (4 : ℕ) * (k + 1) = 4 + 4 * k := by ring
    rw [hs]
    exact (naiveFill_split m d v 4 (4 * k)).symm

theorem memset_eq (m : Mem) (d v n : ℕ) (hv : v < 256) :
    sf2000_memset_aligned m d v n = naiveFill m d v n := by
  unfold sf2000_memset_aligned
  by_cases ha : d % 4 = 0
  · simp only [ha, if_true]
    rw [fillWords_eq (n / 4) m d v hv, fillBytes_eq (n % 4)]
    have hn : n = 4 * (n / 4) + n % 4 := by omega
    conv_rhs => rw [hn]
    exact (naiveFill_split m d v (4 * (n / 4)) (n % 4)).symm
  · simp only [ha, if_false]
    exact fillBytes_eq n m d v

theorem copyWords_add (a : ℕ) :
    ∀ b m d s, copyWords m d s (a + b) = copyWords (copyWords m d s a) (d + 4 * a) (s + 4 * a) b := by
  induction a with
  | zero =>
    intro b m d s
    simp [copyWords]
  | succ a ih =>
    intro b m d s
    have hab : a + 1 + b = a + b + 1 := by omega
    rw [hab]
    show copyWords (copyWord m d s) (d + 4) (s + 4) (a + b) =
      copyWords (copyWords (copyWord m d s) (d + 4) (s + 4) a) (d + 4 * (a + 1)) (s + 4 * (a + 1)) b
    rw [ih b (copyWord m d s) (d + 4) (s + 4)]
    have hd : d + 4 + 4 * a = d + 4 * (a + 1) := by ring
    have hs : s + 4 + 4 * a = s + 4 * (a + 1) := by ring
    rw [hd, hs]

theorem copyBurst_eq_words (m : Mem) (d s : ℕ) : copyBurst m d s = copyWords m d s 8 := by
  simp only [copyWords, copyBurst]

theorem copyBursts_eq (k : ℕ) :
    ∀ m d s, copyBursts m d s k = copyWords m d s (8 * k) := by
  induction k with
  | zero =>
    intro m d s
    rfl
  | succ k ih =>
    intro m d s
    show copyBursts (copyBurst m d s) (d + 32) (s + 32) k = copyWords m d s (8 * (k + 1))
    rw [ih, copyBurst_eq_words]
    have h8 : 8 * (k + 1) = 8 + 8 * k := by ring
    rw [h8, copyWords_add 8 (8 * k) m d s]

theorem burst_eq_core (m : Mem) (d s n : ℕ) :
    sf2000_memcpy_burst m d s n = sf2000_memcpy_aligned m d s n := by
  unfold sf2000_memcpy_burst
  by_cases hb : SF2000_CACHE_LINE_SIZE ≤ n ∧ d % 4 = 0 ∧ s % 4 = 0
  · simp only [hb, if_true]
    obtain ⟨hn32, hd4, hs4⟩ := hb
    have hd4q : (d + 32 * (n / 32)) % 4 = 0 := by omega
    have hs4q : (s + 32 * (n / 32)) % 4 = 0 := by omega
    unfold sf2000_memcpy_aligned
    simp only [hd4, hs4, hd4q, hs4q, and_self, if_true, true_and]
    rw [copyBursts_eq (n / 32) m d s]
    have hw : copyWords (copyWords m d s (8 * (n / 32))) (d + 32 * (n / 32))
        (s + 32 * (n / 32)) (n % 32 / 4) = copyWords m d s (8 * (n / 32) + n % 32 / 4) := by
      have h1 : d + 32 * (n / 32) = d + 4 * (8 * (n / 32)) := by ring
      have h2 : s + 32 * (n / 32) = s + 4 * (8 * (n / 32)) := by ring
      rw [h1, h2]
      exact (copyWords_add (8 * (n / 32)) (n % 32 / 4) m d s).symm
    rw [hw]
    have hq : 8 * (n / 32) + n % 32 / 4 = n / 4 := by omega
    have hr : n % 32 % 4 = n % 4 := by omega
    have hda : d + 32 * (n / 32) + 4 * (n % 32 / 4) = d + 4 * (n / 4) := by omega
    have hsa : s + 32 * (n / 32) + 4 * (n % 32 / 4) = s + 4 * (n / 4) := by omega
    rw [hq, hr, hda, hsa]
  · simp only [hb, if_false]

/-! ## Allocator scan lemmas -/

theorem malloc_fast_no_fit :
    ∀ pools sz, (∀ p ∈ pools, ¬ (sz ≤ p.block_size ∧ 0 < p.free_count)) →
      sf2000_malloc_fast pools sz = (pools, AllocResult.fallback) := by
  intro pools
  induction pools with
  | nil => intro sz _; rfl
  | cons p ps ih =>
    intro sz h
    have hp : ¬ (sz ≤ p.block_size ∧ 0 < p.free_count) := h p (List.mem_cons_self p ps)
    show sf2000_malloc_fast (p :: ps) sz = _
    rw [sf2000_malloc_fast, if_neg hp]
    have hps := ih sz (fun q hq => h q (List.mem_cons_of_mem p hq))
    rw [hps]

theorem malloc_fast_first_fit_some :
    ∀ l1 (p : SF2000_MemoryPool) l2 sz fl,
      (∀ q ∈ l1, ¬ (sz ≤ q.block_size ∧ 0 < q.free_count)) →
      sz ≤ p.block_size → 0 < p.free_count → p.free_list = some fl →
      sf2000_malloc_fast (l1 ++ p :: l2) sz =
        (l1 ++ { p with free_count := p.free_count - 1 } :: l2,
         AllocResult.poolBlock
           (p.pool_memory + fl.getD (p.free_count - 1) 0 * p.block_size)) := by
  intro l1
  induction l1 with
  | nil =>
    intro p l2 sz fl _ h1 h2 hfl
    show sf2000_malloc_fast (p :: l2) sz = _
    rw [sf2000_malloc_fast, if_pos ⟨h1, h2⟩, hfl]
    rfl
  | cons q l1 ih =>
    intro p l2 sz fl h h1 h2 hfl
    have hq : ¬ (sz ≤ q.block_size ∧ 0 < q.free_count) := h q (List.mem_cons_self q l1)
    show sf2000_malloc_fast (q :: (l1 ++ p :: l2)) sz = _
    rw [sf2000_malloc_fast, if_neg hq,
      ih p l2 sz fl (fun r hr => h r (List.mem_cons_of_mem q hr)) h1 h2 hfl]
    rfl

theorem malloc_fast_first_fit_none :
    ∀ l1 (p : SF2000_MemoryPool) l2 sz,
      (∀ q ∈ l1, ¬ (sz ≤ q.block_size ∧ 0 < q.free_count)) →
      sz ≤ p.block_size → 0 < p.free_count → p.free_list = none →
      sf2000_malloc_fast (l1 ++ p :: l2) sz =
        (l1 ++ { p with free_count := p.free_count - 1 } :: l2,
         AllocResult.nullDeref) := by
  intro l1
  induction l1 with
  | nil =>
    intro p l2 sz _ h1 h2 hfl
    show sf2000_malloc_fast (p :: l2) sz = _
    rw [sf2000_malloc_fast, if_pos ⟨h1, h2⟩, hfl]
    rfl
  | cons q l1 ih =>
    intro p l2 sz h h1 h2 hfl
    have hq : ¬ (sz ≤ q.block_size ∧ 0 < q.free_count) := h q (List.mem_cons_self q l1)
    show sf2000_malloc_fast (q :: (l1 ++ p :: l2)) sz = _
    rw [sf2000_malloc_fast, if_neg hq,
      ih p l2 sz (fun r hr => h r (List.mem_cons_of_mem q hr)) h1 h2 hfl]
    rfl

theorem free_scan_no_match :
    ∀ pools ptr, (∀ p ∈ pools, ¬ InSpan p ptr) →
      sf2000_free_fast_scan pools ptr = pools := by
  intro pools
  induction pools with
  | nil => intro ptr _; rfl
  | cons p ps ih =>
    intro ptr h
    have hp : ¬ InSpan p ptr := h p (List.mem_cons_self p ps)
    show sf2000_free_fast_scan (p :: ps) ptr = _
    rw [sf2000_free_fast_scan, if_neg hp, ih ptr (fun q hq => h q (List.mem_cons_of_mem p hq))]

theorem free_scan_first_match :
    ∀ l1 (p : SF2000_MemoryPool) l2 ptr,
      (∀ q ∈ l1, ¬ InSpan q ptr) → InSpan p ptr →
      sf2000_free_fast_scan (l1 ++ p :: l2) ptr =
        l1 ++ (if p.free_count < p.block_count then
          { p with
            free_list := p.free_list.map
              (fun fl => fl.set p.free_count ((ptr - p.pool_memory) / p.block_size)),
            free_count := p.free_count + 1 }
          else p) :: l2 := by
  intro l1
  induction l1 with
  | nil =>
    intro p l2 ptr _ hp
    show sf2000_free_fast_scan (p :: l2) ptr = _
    rw [sf2000_free_fast_scan, if_pos hp]
    by_cases hc : p.free_count < p.block_count
    · rw [if_pos hc, if_pos hc]
      rfl
    · rw [if_neg hc, if_neg hc]
      rfl
  | cons q l1 ih =>
    intro p l2 ptr h hp
    have hq : ¬ InSpan q ptr := h q (List.mem_cons_self q l1)
    show sf2000_free_fast_scan (q :: (l1 ++ p :: l2)) ptr = _
    rw [sf2000_free_fast_scan, if_neg hq,
      ih p l2 ptr (fun r hr => h r (List.mem_cons_of_mem q hr)) hp]
    rfl

/-! ## free_count ≤ block_count is preserved by arbitrary call sequences -/

theorem malloc_fc_le (pools : List SF2000_MemoryPool) (sz : ℕ)
    (h : ∀ p ∈ pools, p.free_count ≤ p.block_count) :
    ∀ p ∈ (sf2000_malloc_fast pools sz).1, p.free_count ≤ p.block_count := by
  induction pools with
  | nil => intro p hp; exact absurd hp (by simp [sf2000_malloc_fast])
  | cons q ps ih =>
    by_cases hq : sz ≤ q.block_size ∧ 0 < q.free_count
    · intro p hp
      rw [sf2000_malloc_fast, if_pos hq] at hp
      rcases hfl : q.free_list with _ | fl <;> rw [hfl] at hp <;>
        rcases List.mem_cons.mp hp with h1 | h2
      · subst h1
        have := h q (List.mem_cons_self q ps)
        simpa using by omega
      · exact h p (List.mem_cons_of_mem q h2)
      · subst h1
        have := h q (List.mem_cons_self q ps)
        simpa using by omega
      · exact h p (List.mem_cons_of_mem q h2)
    · intro p hp
      rw [sf2000_malloc_fast, if_neg hq] at hp
      rcases List.mem_cons.mp hp with h1 | h2
      · subst h1; exact h p (List.mem_cons_self p ps)
      · exact ih (fun r hr => h r (List.mem_cons_of_mem q hr)) p h2

theorem free_scan_fc_le (pools : List SF2000_MemoryPool) (ptr : ℕ)
    (h : ∀ p ∈ pools, p.free_count ≤ p.block_count) :
    ∀ p ∈ sf2000_free_fast_scan pools ptr, p.free_count ≤ p.block_count := by
  induction pools with
  | nil => intro p hp; exact absurd hp (by simp [sf2000_free_fast_scan])
  | cons q ps ih =>
    intro p hp
    rw [sf2000_free_fast_scan] at hp
    by_cases hq : InSpan q ptr
    · rw [if_pos hq] at hp
      by_cases hc : q.free_count < q.block_count
      · rw [if_pos hc] at hp
        rcases List.mem_cons.mp hp with h1 | h2
        · subst h1; simpa using by omega
        · exact h p (List.mem_cons_of_mem q h2)
      · rw [if_neg hc] at hp
        rcases List.mem_cons.mp hp with h1 | h2
        · subst h1; exact h p (List.mem_cons_self p ps)
        · exact h p (List.mem_cons_of_mem q h2)
    · rw [if_neg hq] at hp
      rcases List.mem_cons.mp hp with h1 | h2
      · subst h1; exact h p (List.mem_cons_self p ps)
      · exact ih (fun r hr => h r (List.mem_cons_of_mem q hr)) p h2

theorem free_fast_fc_le (pools : List SF2000_MemoryPool) (ptr : ℕ)
    (h : ∀ p ∈ pools, p.free_count ≤ p.block_count) :
    ∀ p ∈ sf2000_free_fast pools ptr, p.free_count ≤ p.block_count := by
  unfold sf2000_free_fast
  by_cases h0 : ptr = 0
  · rw [if_pos h0]; exact h
  · rw [if_neg h0]; exact free_scan_fc_le pools ptr h

theorem init_fc_le (ms : List (Option ℕ)) :
    ∀ p ∈ sf2000_memory_pools_init ms, p.free_count ≤ p.block_count := by
  intro p hp
  unfold sf2000_memory_pools_init at hp
  obtain ⟨x, _, hx⟩ := List.mem_map.mp hp
  rw [← hx]
  exact Nat.le_refl _

theorem runOps_fc_le (ops : List MemOp) :
    ∀ pools, (∀ p ∈ pools, p.free_count ≤ p.block_count) →
      ∀ p ∈ runOps pools ops, p.free_count ≤ p.block_count := by
  induction ops with
  | nil => intro pools h; exact h
  | cons op ops ih =>
    intro pools h
    show ∀ p ∈ runOps (runOp pools op) ops, p.free_count ≤ p.block_count
    refine ih (runOp pools op) ?_
    cases op with
    | alloc sz => exact malloc_fc_le pools sz h
    | free ptr => exact free_fast_fc_le pools ptr h

/-! ## Span and block-address helpers -/

theorem sep_symm (p q : SF2000_MemoryPool) (h : Sep p q) : Sep q p := Or.symm h

theorem sep_ne (p q : SF2000_MemoryPool) (h : Sep p q) (a b : ℕ)
    (ha : InSpan p a) (hb : InSpan q b) : a ≠ b := by
  rcases h with h | h <;> (obtain ⟨ha1, ha2⟩ := ha; obtain ⟨hb1, hb2⟩ := hb; omega)

theorem blockAddr_inSpan (p : SF2000_MemoryPool) (i : ℕ)
    (hbs : 0 < p.block_size) (hi : i < p.block_count) : InSpan p (blockAddr p i) := by
  refine ⟨Nat.le_add_right _ _, ?_⟩
  have h1 : i * p.block_size < p.block_count * p.block_size :=
    (Nat.mul_lt_mul_right hbs).mpr hi
  have h2 : p.block_count * p.block_size = p.block_size * p.block_count := Nat.mul_comm _ _
  simp only [blockAddr]
  omega

theorem blockAddr_inj (p : SF2000_MemoryPool) (i j : ℕ) (hbs : 0 < p.block_size)
    (h : blockAddr p i = blockAddr p j) : i = j := by
  simp only [blockAddr] at h
  have h2 : i * p.block_size = j * p.block_size := by omega
  exact Nat.eq_of_mul_eq_mul_right hbs h2

theorem blockAddr_pos (p : SF2000_MemoryPool) (i : ℕ) (hb : 0 < p.pool_memory) :
    0 < blockAddr p i := by
  simp only [blockAddr]
  omega

/-- Two pools both in a Sep-pairwise list, holding blocks at a common address,
must be the same element value. -/
theorem pairwise_sep_forall :
    ∀ (l : List SF2000_MemoryPool), l.Pairwise Sep →
      ∀ p ∈ l, ∀ q ∈ l, p ≠ q → Sep p q := by
  intro l hl
  induction hl with
  | nil => intro p hp; exact absurd hp (List.not_mem_nil p)
  | cons hhead _ ih =>
    intro p hp q hq hne
    rcases List.mem_cons.mp hp with hp1 | hp2 <;> rcases List.mem_cons.mp hq with hq1 | hq2
    · exact absurd (hp1.trans hq1.symm) hne
    · subst hp1; exact hhead q hq2
    · subst hq1; exact sep_symm _ _ (hhead p hp2)
    · exact ih p hp2 q hq2 hne

/-! ## List helpers -/

theorem take_set_succ :
    ∀ (l : List ℕ) (n : ℕ) (x : ℕ), n < l.length →
      (l.set n x).take (n + 1) = l.take n ++ [x] := by
  intro l
  induction l with
  | nil => intro n x h; simp at h
  | cons a l ih =>
    intro n x h
    cases n with
    | zero => rfl
    | succ n =>
      have hn : n < l.length := by simpa using h
      show a :: (l.set n x).take (n + 1) = a :: (l.take n ++ [x])
      rw [ih n x hn]

theorem take_succ_getD (fl : List ℕ) (n : ℕ) (hlt : n < fl.length) :
    fl.take (n + 1) = fl.take n ++ [fl.getD n 0] := by
  rw [List.take_succ, List.getElem?_eq_getElem hlt, List.getD_eq_getElem fl 0 hlt]
  rfl

theorem take_eq_append_getD (fl : List ℕ) (fc : ℕ) (h0 : 0 < fc) (hlt : fc - 1 < fl.length) :
    fl.take fc = fl.take (fc - 1) ++ [fl.getD (fc - 1) 0] := by
  have hfc1 : fc - 1 + 1 = fc := by omega
  conv_lhs => rw [← hfc1]
  exact take_succ_getD fl (fc - 1) hlt

/-- Decompose a list at the first element satisfying a predicate. -/
theorem exists_first_fit {P : SF2000_MemoryPool → Prop} [DecidablePred P] :
    ∀ (l : List SF2000_MemoryPool), (∃ p ∈ l, P p) →
      ∃ l1 p l2, l = l1 ++ p :: l2 ∧ P p ∧ ∀ q ∈ l1, ¬ P q := by
  intro l
  induction l with
  | nil => intro h; obtain ⟨p, hp, _⟩ := h; exact absurd hp (List.not_mem_nil p)
  | cons a l ih =>
    intro h
    by_cases ha : P a
    · exact ⟨[], a, l, rfl, ha, by intro q hq; exact absurd hq (List.not_mem_nil q)⟩
    · have hl : ∃ p ∈ l, P p := by
        obtain ⟨p, hp, hPp⟩ := h
        rcases List.mem_cons.mp hp with h1 | h2
        · exact absurd (h1 ▸ hPp) ha
        · exact ⟨p, h2, hPp⟩
      obtain ⟨l1, p, l2, heq, hPp, hq⟩ := ih hl
      refine ⟨a :: l1, p, l2, by rw [heq]; rfl, hPp, ?_⟩
      intro q hq2
      rcases List.mem_cons.mp hq2 with h1 | h2
      · exact h1 ▸ ha
      · exact hq q h2

/-! ## PoolInv under live-set changes that miss the pool -/

theorem poolInv_insert_other (live : Finset ℕ) (a : ℕ) (q : SF2000_MemoryPool)
    (hq : PoolInv live q) (hne : ∀ j, j < q.block_count → blockAddr q j ≠ a) :
    PoolInv (insert a live) q := by
  obtain ⟨hbs, hb, hfc, fl, hfl, hlen, hnd, hmem, hiff⟩ := hq
  refine ⟨hbs, hb, hfc, fl, hfl, hlen, hnd, hmem, ?_⟩
  intro i hi
  rw [hiff i hi]
  have hne2 : blockAddr q i ≠ a := hne i hi
  simp [Finset.mem_insert, hne2]

theorem poolInv_erase_other (live : Finset ℕ) (ptr : ℕ) (q : SF2000_MemoryPool)
    (hq : PoolInv live q) (hne : ∀ j, j < q.block_count → blockAddr q j ≠ ptr) :
    PoolInv (live.erase ptr) q := by
  obtain ⟨hbs, hb, hfc, fl, hfl, hlen, hnd, hmem, hiff⟩ := hq
  refine ⟨hbs, hb, hfc, fl, hfl, hlen, hnd, hmem, ?_⟩
  intro i hi
  rw [hiff i hi]
  have hne2 : blockAddr q i ≠ ptr := hne i hi
  simp [Finset.mem_erase, hne2]

/-! ## Invariant preservation: Allocate -/

theorem inv_allocStep (pools : List SF2000_MemoryPool) (live : Finset ℕ) (sz : ℕ)
    (h : Inv pools live) :
    Inv (allocStep pools live sz).1 (allocStep pools live sz).2 := by
  obtain ⟨hinv, hpair, hcov⟩ := h
  by_cases hfit : ∃ p ∈ pools, sz ≤ p.block_size ∧ 0 < p.free_count
  · obtain ⟨l1, p, l2, heq, hPp, hnofit⟩ := exists_first_fit pools hfit
    obtain ⟨hsz, hfc⟩ := hPp
    subst heq
    have hpmem : p ∈ l1 ++ p :: l2 := List.mem_append_right l1 (List.mem_cons_self p l2)
    obtain ⟨hbs, hb, hfcle, fl, hfl, hlen, hnd, hmemb, hiff⟩ := hinv p hpmem
    set idx := fl.getD (p.free_count - 1) 0 with hidx_def
    have hlt : p.free_count - 1 < fl.length := by omega
    have htake : fl.take p.free_count = fl.take (p.free_count - 1) ++ [idx] :=
      take_eq_append_getD fl p.free_count hfc hlt
    have hidx_mem : idx ∈ fl.take p.free_count := by
      rw [htake]
      exact List.mem_append_right _ (List.mem_singleton_self idx)
    have hidx_lt : idx < p.block_count := hmemb idx hidx_mem
    have hnd1 : (fl.take (p.free_count - 1)).Nodup := by
      rw [htake, List.nodup_append] at hnd
      exact hnd.1
    have hnotpre : idx ∉ fl.take (p.free_count - 1) := by
      rw [htake, List.nodup_append] at hnd
      exact fun hm => hnd.2.2 hm (List.mem_singleton_self idx)
    have hmalloc := malloc_fast_first_fit_some l1 p l2 sz fl hnofit hsz hfc hfl
    have hstep : allocStep (l1 ++ p :: l2) live sz =
        (l1 ++ { p with free_count := p.free_count - 1 } :: l2,
         insert (p.pool_memory + idx * p.block_size) live) := by
      rw [allocStep, hmalloc]
    rw [hstep]
    have ha_eq : p.pool_memory + idx * p.block_size = blockAddr p idx := rfl
    rw [List.pairwise_append] at hpair
    obtain ⟨hpair1, hpair2, hpair12⟩ := hpair
    rw [List.pairwise_cons] at hpair2
    obtain ⟨hsep_p_l2, hpair_l2⟩ := hpair2
    have hsep_l1_p : ∀ q ∈ l1, Sep q p := fun q hq =>
      hpair12 q hq p (List.mem_cons_self p l2)
    refine ⟨?_, ?_, ?_⟩
    · intro q hq
      rcases List.mem_append.mp hq with hq1 | hq2
      swap
      · rcases List.mem_cons.mp hq2 with hq3 | hq4
        swap
        · refine poolInv_insert_other live _ q
            (hinv q (List.mem_append_right _ (List.mem_cons_of_mem p hq4))) ?_
          intro j hj hcontra
          obtain ⟨hbsq, _, _, _, _, _, _, _, _⟩ :=
            hinv q (List.mem_append_right _ (List.mem_cons_of_mem p hq4))
          exact sep_ne p q (hsep_p_l2 q hq4) _ _ (blockAddr_inSpan p idx hbs hidx_lt)
            (blockAddr_inSpan q j hbsq hj) (ha_eq ▸ hcontra.symm)
        · subst hq3
          show PoolInv _ ({ p with free_count := p.free_count - 1 })
          refine ⟨hbs, hb, by show p.free_count - 1 ≤ p.block_count; omega,
            fl, hfl, hlen, ?_, ?_, ?_⟩
          · show (fl.take (p.free_count - 1)).Nodup
            exact hnd1
          · show ∀ i ∈ fl.take (p.free_count - 1), i < p.block_count
            intro i hi
            exact hmemb i (by rw [htake]; exact List.mem_append_left _ hi)
          · show ∀ i, i < p.block_count →
              (i ∈ fl.take (p.free_count - 1) ↔
                blockAddr p i ∉ insert (p.pool_memory + idx * p.block_size) live)
            intro i hi
            by_cases hieq : i = idx
            · subst hieq
              refine iff_of_false hnotpre ?_
              rw [ha_eq]
              simp [Finset.mem_insert_self]
            · have hlhs : i ∈ fl.take (p.free_count - 1) ↔ i ∈ fl.take p.free_count := by
                rw [htake, List.mem_append, List.mem_singleton]
                simp [hieq]
              have hane : blockAddr p i ≠ blockAddr p idx := fun hc =>
                hieq (blockAddr_inj p i idx hbs hc)
              rw [hlhs, hiff i hi, ha_eq]
              simp [Finset.mem_insert, hane]
      · refine poolInv_insert_other live _ q (hinv q (List.mem_append_left _ hq1)) ?_
        intro j hj hcontra
        obtain ⟨hbsq, _, _, _, _, _, _, _, _⟩ := hinv q (List.mem_append_left _ hq1)
        exact sep_ne q p (hsep_l1_p q hq1) _ _ (blockAddr_inSpan q j hbsq hj)
          (blockAddr_inSpan p idx hbs hidx_lt) (ha_eq ▸ hcontra)
    · rw [List.pairwise_append]
      refine ⟨hpair1, ?_, ?_⟩
      · rw [List.pairwise_cons]
        exact ⟨fun q hq => hsep_p_l2 q hq, hpair_l2⟩
      · intro x hx y hy
        rcases List.mem_cons.mp hy with hy1 | hy2
        · subst hy1
          exact hpair12 x hx p (List.mem_cons_self p l2)
        · exact hpair12 x hx y (List.mem_cons_of_mem _ hy2)
    · intro b hbmem
      rcases Finset.mem_insert.mp hbmem with hb1 | hb3
      · subst hb1
        exact ⟨{ p with free_count := p.free_count - 1 },
          List.mem_append_right l1 (List.mem_cons_self _ l2), idx, hidx_lt, rfl⟩
      · obtain ⟨q, hqm, hqb⟩ := hcov b hb3
        rcases List.mem_append.mp hqm with h1 | h2
        · exact ⟨q, List.mem_append_left _ h1, hqb⟩
        · rcases List.mem_cons.mp h2 with h3 | h4
          · subst h3
            obtain ⟨i, hi, hbi⟩ := hqb
            exact ⟨{ q with free_count := q.free_count - 1 },
              List.mem_append_right l1 (List.mem_cons_self _ l2), i, hi, hbi⟩
          · exact ⟨q, List.mem_append_right _ (List.mem_cons_of_mem _ h4), hqb⟩
  · have hall : ∀ p ∈ pools, ¬ (sz ≤ p.block_size ∧ 0 < p.free_count) := by
      intro p hp hc
      exact hfit ⟨p, hp, hc⟩
    have hstep : allocStep pools live sz = (pools, live) := by
      rw [allocStep, malloc_fast_no_fit pools sz hall]
    rw [hstep]
    exact ⟨hinv, hpair, hcov⟩

/-! ## Invariant preservation: Free -/

theorem free_fast_null (pools : List SF2000_MemoryPool) :
    sf2000_free_fast pools 0 = pools := by
  unfold sf2000_free_fast
  simp

theorem inv_freeOutside (pools : List SF2000_MemoryPool) (live : Finset ℕ) (ptr : ℕ)
    (h : Inv pools live) (ho : ∀ p ∈ pools, ¬ InSpan p ptr) :
    Inv (sf2000_free_fast pools ptr) live := by
  unfold sf2000_free_fast
  by_cases h0 : ptr = 0
  · rw [if_pos h0]; exact h
  · rw [if_neg h0, free_scan_no_match pools ptr ho]; exact h

theorem inv_freeLive (pools : List SF2000_MemoryPool) (live : Finset ℕ) (ptr : ℕ)
    (h : Inv pools live) (hlive : ptr ∈ live) :
    Inv (sf2000_free_fast pools ptr) (live.erase ptr) := by
  obtain ⟨hinv, hpair, hcov⟩ := h
  obtain ⟨p, hpmem, iq, hiq, haddr⟩ := hcov ptr hlive
  obtain ⟨hbs, hb, hfcle, fl, hfl, hlen, hnd, hmemb, hiff⟩ := hinv p hpmem
  have hptr0 : ptr ≠ 0 := by
    have := blockAddr_pos p iq hb
    omega
  have hspan_p : InSpan p ptr := haddr ▸ blockAddr_inSpan p iq hbs hiq
  obtain ⟨l1, q, l2, heq, hqspan, hl1⟩ :=
    exists_first_fit (P := fun r => InSpan r ptr) pools ⟨p, hpmem, hspan_p⟩
  have hqmem : q ∈ pools := by
    rw [heq]
    exact List.mem_append_right _ (List.mem_cons_self q l2)
  have hpq : p = q := by
    by_contra hne
    exact sep_ne p q (pairwise_sep_forall pools hpair p hpmem q hqmem hne) ptr ptr
      hspan_p hqspan rfl
  subst hpq
  subst heq
  have hiq_notact : iq ∉ fl.take p.free_count := by
    intro hmem2
    exact ((hiff iq hiq).mp hmem2) (haddr ▸ hlive)
  have hfclt : p.free_count < p.block_count := by
    have hlen_take : (fl.take p.free_count).length = p.free_count := by
      rw [List.length_take]
      omega
    have hcard : (fl.take p.free_count).toFinset.card = p.free_count := by
      rw [List.toFinset_card_of_nodup hnd, hlen_take]
    have hsub : (fl.take p.free_count).toFinset ⊆ (Finset.range p.block_count).erase iq := by
      intro x hx
      have hx2 : x ∈ fl.take p.free_count := List.mem_toFinset.mp hx
      refine Finset.mem_erase.mpr ⟨?_, Finset.mem_range.mpr (hmemb x hx2)⟩
      intro hxiq
      exact hiq_notact (hxiq ▸ hx2)
    have hle := Finset.card_le_card hsub
    rw [hcard, Finset.card_erase_of_mem (Finset.mem_range.mpr hiq), Finset.card_range] at hle
    omega
  have hdiv : (ptr - p.pool_memory) / p.block_size = iq := by
    rw [haddr]
    show (p.pool_memory + iq * p.block_size - p.pool_memory) / p.block_size = iq
    rw [Nat.add_sub_cancel_left]
    exact Nat.mul_div_cancel iq hbs
  have hscan := free_scan_first_match l1 p l2 ptr hl1 hspan_p
  rw [if_pos hfclt] at hscan
  have hfree : sf2000_free_fast (l1 ++ p :: l2) ptr =
      l1 ++ { p with
          free_list := p.free_list.map
            (fun fl2 => fl2.set p.free_count ((ptr - p.pool_memory) / p.block_size)),
          free_count := p.free_count + 1 } :: l2 := by
    unfold sf2000_free_fast
    rw [if_neg hptr0]
    exact hscan
  have hmapped : p.free_list.map
      (fun fl2 => fl2.set p.free_count ((ptr - p.pool_memory) / p.block_size)) =
      some (fl.set p.free_count iq) := by
    rw [hfl]
    show some (fl.set p.free_count ((ptr - p.pool_memory) / p.block_size)) = _
    rw [hdiv]
  rw [hfree, hmapped]
  have hfl2len : (fl.set p.free_count iq).length = p.block_count := by
    rw [List.length_set]
    exact hlen
  have hfc_lt_len : p.free_count < fl.length := by omega
  have htake2 : (fl.set p.free_count iq).take (p.free_count + 1) =
      fl.take p.free_count ++ [iq] := take_set_succ fl p.free_count iq hfc_lt_len
  have hpair2 := hpair
  rw [List.pairwise_append] at hpair2
  obtain ⟨hpair_l1, hpair_pl2, hpair12⟩ := hpair2
  rw [List.pairwise_cons] at hpair_pl2
  obtain ⟨hsep_p_l2, hpair_l2⟩ := hpair_pl2
  have hsep_l1_p : ∀ r ∈ l1, Sep r p := fun r hr =>
    hpair12 r hr p (List.mem_cons_self p l2)
  refine ⟨?_, ?_, ?_⟩
  · intro r hr
    rcases List.mem_append.mp hr with hr1 | hr2
    · refine poolInv_erase_other live ptr r (hinv r (List.mem_append_left _ hr1)) ?_
      intro j hj hcontra
      obtain ⟨hbsr, _, _, _, _, _, _, _, _⟩ := hinv r (List.mem_append_left _ hr1)
      exact sep_ne r p (hsep_l1_p r hr1) _ _ (blockAddr_inSpan r j hbsr hj) hspan_p hcontra
    · rcases List.mem_cons.mp hr2 with hr3 | hr4
      · rw [hr3]
        refine ⟨hbs, hb, by show p.free_count + 1 ≤ p.block_count; omega,
          fl.set p.free_count iq, rfl, hfl2len, ?_, ?_, ?_⟩
        · show ((fl.set p.free_count iq).take (p.free_count + 1)).Nodup
          rw [htake2, List.nodup_append]
          refine ⟨hnd, List.nodup_singleton iq, ?_⟩
          intro x hx1 hx2
          rw [List.mem_singleton] at hx2
          exact hiq_notact (hx2 ▸ hx1)
        · show ∀ i ∈ (fl.set p.free_count iq).take (p.free_count + 1), i < p.block_count
          intro i hi
          rw [htake2, List.mem_append, List.mem_singleton] at hi
          rcases hi with hi1 | hi2
          · exact hmemb i hi1
          · exact hi2 ▸ hiq
        · show ∀ i, i < p.block_count →
            (i ∈ (fl.set p.free_count iq).take (p.free_count + 1) ↔
              blockAddr p i ∉ live.erase ptr)
          intro i hi
          rw [htake2, List.mem_append, List.mem_singleton]
          by_cases hieq : i = iq
          · subst hieq
            refine iff_of_true (Or.inr rfl) ?_
            rw [← haddr]
            exact Finset.not_mem_erase ptr live
          · have hane : blockAddr p i ≠ ptr := by
              rw [haddr]
              exact fun hc => hieq (blockAddr_inj p i iq hbs hc)
            simp only [hieq, or_false]
            rw [hiff i hi]
            simp [Finset.mem_erase, hane]
      · refine poolInv_erase_other live ptr r
          (hinv r (List.mem_append_right _ (List.mem_cons_of_mem p hr4))) ?_
        intro j hj hcontra
        obtain ⟨hbsr, _, _, _, _, _, _, _, _⟩ :=
          hinv r (List.mem_append_right _ (List.mem_cons_of_mem p hr4))
        exact sep_ne p r (hsep_p_l2 r hr4) _ _ hspan_p
          (blockAddr_inSpan r j hbsr hj) hcontra.symm
  · rw [List.pairwise_append]
    refine ⟨hpair_l1, ?_, ?_⟩
    · rw [List.pairwise_cons]
      exact ⟨fun r hr => hsep_p_l2 r hr, hpair_l2⟩
    · intro x hx y hy
      rcases List.mem_cons.mp hy with hy1 | hy2
      · subst hy1
        exact hpair12 x hx p (List.mem_cons_self p l2)
      · exact hpair12 x hx y (List.mem_cons_of_mem _ hy2)
  · intro b hbmem
    have hbl : b ∈ live := Finset.mem_of_mem_erase hbmem
    obtain ⟨r, hrm, hrb⟩ := hcov b hbl
    rcases List.mem_append.mp hrm with h1 | h2
    · exact ⟨r, List.mem_append_left _ h1, hrb⟩
    · rcases List.mem_cons.mp h2 with h3 | h4
      · subst h3
        obtain ⟨i, hi, hbi⟩ := hrb
        exact ⟨{ r with
            free_list := some (fl.set r.free_count iq),
            free_count := r.free_count + 1 },
          List.mem_append_right l1 (List.mem_cons_self _ l2), i, hi, hbi⟩
      · exact ⟨r, List.mem_append_right _ (List.mem_cons_of_mem _ h4), hrb⟩

/-! ## Invariant at initialization, and along every reachable state -/

theorem align_up_pos (m : ℕ) (hm : 0 < m) (hm2 : m + 31 < 2 ^ 32) :
    0 < sf2000_align_up m := by
  unfold sf2000_align_up
  omega

theorem poolInv_pool_init (bs bc m : ℕ) (hbs : 0 < bs) (hm : 0 < m) (hm2 : m + 31 < 2 ^ 32) :
    PoolInv ∅ (pool_init bs bc (some m)) := by
  have htk : (List.range bc).take bc = List.range bc :=
    List.take_of_length_le (by rw [List.length_range])
  refine ⟨hbs, align_up_pos m hm hm2, Nat.le_refl bc, List.range bc, rfl,
    List.length_range bc, ?_, ?_, ?_⟩
  · show ((List.range bc).take bc).Nodup
    rw [htk]
    exact List.nodup_range bc
  · show ∀ i ∈ (List.range bc).take bc, i < bc
    rw [htk]
    intro i hi
    exact List.mem_range.mp hi
  · show ∀ i, i < bc → (i ∈ (List.range bc).take bc ↔
      blockAddr (pool_init bs bc (some m)) i ∉ (∅ : Finset ℕ))
    intro i hi
    rw [htk]
    exact iff_of_true (List.mem_range.mpr hi) (Finset.not_mem_empty _)

theorem pool_sizes_pos : ∀ x ∈ pool_sizes, 0 < x := by decide

theorem inv_init (ms : List ℕ)
    (hm : ∀ m ∈ ms, 0 < m ∧ m + 31 < 2 ^ 32)
    (hsep : (sf2000_memory_pools_init (ms.map some)).Pairwise Sep) :
    Inv (sf2000_memory_pools_init (ms.map some)) ∅ := by
  refine ⟨?_, hsep, ?_⟩
  · intro p hp
    unfold sf2000_memory_pools_init at hp
    obtain ⟨x, hzip, hx⟩ := List.mem_map.mp hp
    obtain ⟨⟨bs, bc⟩, mo⟩ := x
    have hx2 : pool_init bs bc mo = p := hx
    have hz := List.of_mem_zip hzip
    obtain ⟨m, hm_mem, rfl⟩ := List.mem_map.mp hz.2
    obtain ⟨hm1, hm2⟩ := hm m hm_mem
    have hbs : 0 < bs := pool_sizes_pos bs (List.of_mem_zip hz.1).1
    rw [← hx2]
    exact poolInv_pool_init bs bc m hbs hm1 hm2
  · intro a ha
    exact absurd ha (Finset.not_mem_empty a)

theorem reach_inv (pools : List SF2000_MemoryPool) (live : Finset ℕ)
    (h : Reach pools live) : Inv pools live := by
  induction h with
  | init ms h8 hm hsep => exact inv_init ms hm hsep
  | alloc pools live sz h ih => exact inv_allocStep pools live sz ih
  | freeNull pools live h ih => rw [free_fast_null]; exact ih
  | freeLive pools live ptr hp h ih => exact inv_freeLive pools live ptr ih hp
  | freeOutside pools live ptr hp ho h ih => exact inv_freeOutside pools live ptr ih ho

/-! ## Consequences of the invariant -/

theorem inv_conservation (pools : List SF2000_MemoryPool) (live : Finset ℕ)
    (h : Inv pools live) :
    ∀ p ∈ pools, p.free_count + allocatedCount p live = p.block_count := by
  intro p hp
  obtain ⟨hbs, hb, hfcle, fl, hfl, hlen, hnd, hmemb, hiff⟩ := h.1 p hp
  have hlen_take : (fl.take p.free_count).length = p.free_count := by
    rw [List.length_take]
    omega
  have hcard : (fl.take p.free_count).toFinset.card = p.free_count := by
    rw [List.toFinset_card_of_nodup hnd, hlen_take]
  have hsub : (fl.take p.free_count).toFinset ⊆ Finset.range p.block_count := by
    intro x hx
    exact Finset.mem_range.mpr (hmemb x (List.mem_toFinset.mp hx))
  have hset : (Finset.range p.block_count).filter (fun i => blockAddr p i ∈ live) =
      Finset.range p.block_count \ (fl.take p.free_count).toFinset := by
    ext i
    simp only [Finset.mem_filter, Finset.mem_sdiff, Finset.mem_range, List.mem_toFinset]
    constructor
    · intro ⟨hi, hmem2⟩
      refine ⟨hi, ?_⟩
      intro hact
      exact ((hiff i hi).mp hact) hmem2
    · intro ⟨hi, hnact⟩
      refine ⟨hi, ?_⟩
      by_contra hnl
      exact hnact ((hiff i hi).mpr hnl)
  unfold allocatedCount
  rw [hset, Finset.card_sdiff hsub, hcard, Finset.card_range]
  omega

theorem inv_free_list_distinct (pools : List SF2000_MemoryPool) (live : Finset ℕ)
    (h : Inv pools live) :
    ∀ p ∈ pools, ∃ fl, p.free_list = some fl ∧ (fl.take p.free_count).Nodup ∧
      ∀ i ∈ fl.take p.free_count, i < p.block_count := by
  intro p hp
  obtain ⟨_, _, _, fl, hfl, _, hnd, hmemb, _⟩ := h.1 p hp
  exact ⟨fl, hfl, hnd, hmemb⟩

/-! ## Loader lemmas -/

theorem storeBytes_outside :
    ∀ (l : List ℕ) (m : Mem) (a x : ℕ), (x < a ∨ a + l.length ≤ x) →
      storeBytes m a l x = m x := by
  intro l
  induction l with
  | nil => intro m a x _; rfl
  | cons v vs ih =>
    intro m a x hx
    show storeBytes (memUpd m a v) (a + 1) vs x = m x
    rw [ih (memUpd m a v) (a + 1) x (by simp at hx; omega)]
    have hxa : x ≠ a := by simp at hx; omega
    simp [memUpd, hxa]

theorem storeBytes_getD :
    ∀ (l : List ℕ) (m : Mem) (a i : ℕ), i < l.length →
      storeBytes m a l (a + i) = l.getD i 0 := by
  intro l
  induction l with
  | nil => intro m a i h; simp at h
  | cons v vs ih =>
    intro m a i hi
    cases i with
    | zero =>
      show storeBytes (memUpd m a v) (a + 1) vs (a + 0) = v
      rw [storeBytes_outside vs (memUpd m a v) (a + 1) (a + 0) (by omega)]
      simp [memUpd]
    | succ i =>
      have hi2 : i < vs.length := by simpa using hi
      have haddr : a + (i + 1) = (a + 1) + i := by omega
      show storeBytes (memUpd m a v) (a + 1) vs (a + (i + 1)) = vs.getD i 0
      rw [haddr]
      exact ih (memUpd m a v) (a + 1) i hi2

theorem getD_take_drop (bytes : List ℕ) (pos t i : ℕ) (hi : i < t)
    (hlen : pos + t ≤ bytes.length) :
    ((bytes.drop pos).take t).getD i 0 = bytes.getD (pos + i) 0 := by
  have h1 : i < bytes.length - pos := by omega
  have h2 : pos + i < bytes.length := by omega
  have h3 : i < (bytes.drop pos).length := by
    rw [List.length_drop]
    omega
  have h4 : i < ((bytes.drop pos).take t).length := by
    rw [List.length_take, List.length_drop]
    omega
  rw [List.getD_eq_getElem _ _ h4, List.getD_eq_getElem _ _ h2]
  rw [List.getElem_take, List.getElem_drop]

theorem chunk_length (bytes : List ℕ) (pos t : ℕ) (h : pos + t ≤ bytes.length) :
    ((bytes.drop pos).take t).length = t := by
  rw [List.length_take, List.length_drop]
  omega

theorem readLoopF_spec (env : LoadEnv) (bytes : List ℕ) (w : ℕ) :
    ∀ fuel rem mem pos k, rem ≤ fuel → pos + rem ≤ bytes.length →
      (readLoopF env bytes fuel mem w pos rem k).2 = true →
      (∀ x, x < w + pos ∨ w + pos + rem ≤ x →
        (readLoopF env bytes fuel mem w pos rem k).1 x = mem x) ∧
      (∀ i, i < rem →
        (readLoopF env bytes fuel mem w pos rem k).1 (w + pos + i) =
          bytes.getD (pos + i) 0) := by
  intro fuel
  induction fuel with
  | zero =>
    intro rem mem pos k hle hlen _
    have hrem : rem = 0 := by omega
    subst hrem
    exact ⟨fun x _ => rfl, fun i hi => absurd hi (by omega)⟩
  | succ fuel ih =>
    intro rem mem pos k hle hlen hsucc
    cases rem with
    | zero => exact ⟨fun x _ => rfl, fun i hi => absurd hi (by omega)⟩
    | succ r =>
      have hunfold : readLoopF env bytes (fuel + 1) mem w pos (r + 1) k =
          (if min (env.freadRaw k) (min (r + 1) 8192) = min (r + 1) 8192 then
            readLoopF env bytes fuel
              (storeBytes mem (w + pos)
                ((bytes.drop pos).take (min (env.freadRaw k) (min (r + 1) 8192))))
              w (pos + min (r + 1) 8192) (r + 1 - min (r + 1) 8192) (k + 1)
          else
            (storeBytes mem (w + pos)
              ((bytes.drop pos).take (min (env.freadRaw k) (min (r + 1) 8192))),
             false)) := rfl
      by_cases hact : min (env.freadRaw k) (min (r + 1) 8192) = min (r + 1) 8192
      · rw [hunfold, if_pos hact] at hsucc ⊢
        have hchunk_len :
            ((bytes.drop pos).take (min (env.freadRaw k) (min (r + 1) 8192))).length =
              min (r + 1) 8192 := by
          rw [hact]
          exact chunk_length bytes pos _ (by omega)
        obtain ⟨ihout, ihin⟩ := ih (r + 1 - min (r + 1) 8192) _ (pos + min (r + 1) 8192)
          (k + 1) (by omega) (by omega) hsucc
        constructor
        · intro x hx
          rw [ihout x (by omega)]
          refine storeBytes_outside _ mem (w + pos) x ?_
          rw [hchunk_len]
          omega
        · intro i hi
          by_cases hio : i < min (r + 1) 8192
          · rw [ihout (w + pos + i) (by omega)]
            have hsg := storeBytes_getD
              ((bytes.drop pos).take (min (env.freadRaw k) (min (r + 1) 8192)))
              mem (w + pos) i (by rw [hchunk_len]; omega)
            rw [hsg, hact]
            exact getD_take_drop bytes pos _ i hio (by omega)
          · have hgot := ihin (i - min (r + 1) 8192) (by omega)
            have haddr : w + (pos + min (r + 1) 8192) + (i - min (r + 1) 8192) =
                w + pos + i := by omega
            rw [haddr] at hgot
            rw [hgot]
            congr 1
            omega
      · rw [hunfold, if_neg hact] at hsucc
        simp at hsucc

theorem readLoopF_false_iff (env : LoadEnv) (bytes : List ℕ) (w : ℕ) :
    ∀ fuel rem mem pos k, rem ≤ fuel →
      ((readLoopF env bytes fuel mem w pos rem k).2 = false ↔
        ∃ j, 8192 * j < rem ∧ env.freadRaw (k + j) < min (rem - 8192 * j) 8192) := by
  intro fuel
  induction fuel with
  | zero =>
    intro rem mem pos k hle
    have hrem : rem = 0 := by omega
    subst hrem
    constructor
    · intro h
      simp [readLoopF] at h
    · rintro ⟨j, hj, _⟩
      omega
  | succ fuel ih =>
    intro rem mem pos k hle
    cases rem with
    | zero =>
      constructor
      · intro h
        simp [readLoopF] at h
      · rintro ⟨j, hj, _⟩
        omega
    | succ r =>
      have hunfold : readLoopF env bytes (fuel + 1) mem w pos (r + 1) k =
          (if min (env.freadRaw k) (min (r + 1) 8192) = min (r + 1) 8192 then
            readLoopF env bytes fuel
              (storeBytes mem (w + pos)
                ((bytes.drop pos).take (min (env.freadRaw k) (min (r + 1) 8192))))
              w (pos + min (r + 1) 8192) (r + 1 - min (r + 1) 8192) (k + 1)
          else
            (storeBytes mem (w + pos)
              ((bytes.drop pos).take (min (env.freadRaw k) (min (r + 1) 8192))),
             false)) := rfl
      by_cases hact : min (env.freadRaw k) (min (r + 1) 8192) = min (r + 1) 8192
      · rw [hunfold, if_pos hact,
          ih (r + 1 - min (r + 1) 8192) _ (pos + min (r + 1) 8192) (k + 1) (by omega)]
        constructor
        · rintro ⟨j, hj1, hj2⟩
          refine ⟨j + 1, by omega, ?_⟩
          have hidx : k + 1 + j = k + (j + 1) := by omega
          rw [hidx] at hj2
          have hmin : min (r + 1 - 8192 * (j + 1)) 8192 =
              min (r + 1 - min (r + 1) 8192 - 8192 * j) 8192 := by omega
          rw [hmin]
          exact hj2
        · rintro ⟨j, hj1, hj2⟩
          cases j with
          | zero =>
            exfalso
            have hidx : k + 0 = k := rfl
            rw [hidx] at hj2
            omega
          | succ j =>
            refine ⟨j, by omega, ?_⟩
            have hidx : k + (j + 1) = k + 1 + j := by omega
            rw [hidx] at hj2
            have hmin : min (r + 1 - 8192 * (j + 1)) 8192 =
                min (r + 1 - min (r + 1) 8192 - 8192 * j) 8192 := by omega
            rw [hmin] at hj2
            exact hj2
      · rw [hunfold, if_neg hact]
        refine iff_of_true rfl ⟨0, by omega, ?_⟩
        have hidx : k + 0 = k := rfl
        rw [hidx]
        omega

theorem hasShortRead_iff (env : LoadEnv) (L : ℕ) :
    hasShortRead env L ↔
      ∃ j, 8192 * j < L ∧ env.freadRaw (0 + j) < min (L - 8192 * j) 8192 := by
  unfold hasShortRead
  constructor
  · rintro ⟨j, _, hj1, hj2⟩
    refine ⟨j, hj1, ?_⟩
    have hidx : (0 : ℕ) + j = j := by omega
    rw [hidx]
    exact hj2
  · rintro ⟨j, hj1, hj2⟩
    have hidx : (0 : ℕ) + j = j := by omega
    rw [hidx] at hj2
    exact ⟨j, by omega, hj1, hj2⟩

theorem load_eq_none (env : LoadEnv) (pools : List SF2000_MemoryPool) (mem : Mem)
    (h : env.file = none) :
    sf2000_rom_load_optimized env pools mem = ⟨pools, mem, 0, 0⟩ := by
  unfold sf2000_rom_load_optimized
  rw [h]

theorem load_eq_some (env : LoadEnv) (pools : List SF2000_MemoryPool) (mem : Mem)
    (bytes : List ℕ) (h : env.file = some bytes) :
    sf2000_rom_load_optimized env pools mem = sf2000_rom_load_body env pools mem bytes := by
  unfold sf2000_rom_load_optimized
  rw [h]

theorem align_up_le (a : ℕ) : sf2000_align_up a ≤ a + 31 := by
  unfold sf2000_align_up
  omega

/-! ## Claim theorems -/

/-- C1 (code bug evidence): with pool 0's backing-storage reservation failed
(null base, free_count still set to 256), the very next Allocate(16) does not
skip the pool: sf2000_malloc_fast selects it (the scan checks only block_size
and free_count) and dereferences the null free_list pointer. -/
theorem sf2000_C1_failed_pool_not_skipped :
    ((sf2000_memory_pools_init msFail).getD 0 dPool).pool_memory = 0 ∧
    ((sf2000_memory_pools_init msFail).getD 0 dPool).free_list = none ∧
    ((sf2000_memory_pools_init msFail).getD 0 dPool).free_count = 256 ∧
    (sf2000_malloc_fast (sf2000_memory_pools_init msFail) 16).2 =
      AllocResult.nullDeref := by
  refine ⟨rfl, rfl, rfl, rfl⟩

/-- C2: for pools sorted ascending by block size, sf2000_malloc_fast serves a
request from the first pool whose block_size is at least the request and whose
free_count is positive, popping the top of that pool's free list and touching
no other pool; and it delegates to the fallback allocator exactly when no such
pool exists. -/
theorem sf2000_C2_first_fit :
    (∀ pools sz, (∀ p ∈ pools, ¬ (sz ≤ p.block_size ∧ 0 < p.free_count)) →
       sf2000_malloc_fast pools sz = (pools, AllocResult.fallback)) ∧
    (∀ l1 (p : SF2000_MemoryPool) l2 sz fl,
       (l1 ++ p :: l2).Sorted (fun a b => a.block_size ≤ b.block_size) →
       (∀ q ∈ l1, ¬ (sz ≤ q.block_size ∧ 0 < q.free_count)) →
       sz ≤ p.block_size → 0 < p.free_count → p.free_list = some fl →
       sf2000_malloc_fast (l1 ++ p :: l2) sz =
         (l1 ++ { p with free_count := p.free_count - 1 } :: l2,
          AllocResult.poolBlock
            (p.pool_memory + fl.getD (p.free_count - 1) 0 * p.block_size))) :=
  ⟨malloc_fast_no_fit, fun l1 p l2 sz fl _ h hsz hfc hfl =>
    malloc_fast_first_fit_some l1 p l2 sz fl h hsz hfc hfl⟩

set_option maxRecDepth 100000 in
/-- Witness for C2: Allocate(40) on freshly initialized pools skips the
exhaustible-but-too-small 32-byte pool and takes block 127 of the 64-byte
pool, returning address 131072 + 127 * 64 = 139200. -/
theorem sf2000_C2_first_fit_witness :
    sf2000_malloc_fast
        ([pool_init 32 256 (some 65536)] ++ pool_init 64 128 (some 131072) :: pools0rest)
        40 =
      ([pool_init 32 256 (some 65536)] ++
        { pool_init 64 128 (some 131072) with free_count := 127 } :: pools0rest,
       AllocResult.poolBlock 139200) := by
  have h := sf2000_C2_first_fit.2 [pool_init 32 256 (some 65536)]
    (pool_init 64 128 (some 131072)) pools0rest 40 (List.range 128)
    (by decide) (by decide) (by decide) (by decide) rfl
  rw [h]
  decide

/-- C3: along every sequence of Allocate and Free calls from a successfully
initialized allocator in which no pointer is freed twice, every pool satisfies
free_count + (number of its blocks currently allocated) = block_count. -/
theorem sf2000_C3_pool_conservation (pools : List SF2000_MemoryPool) (live : Finset ℕ)
    (h : Reach pools live) :
    ∀ p ∈ pools, p.free_count + allocatedCount p live = p.block_count :=
  inv_conservation pools live (reach_inv pools live h)

set_option maxRecDepth 100000 in
/-- Witness for C3 at the freshly initialized state. -/
theorem sf2000_C3_pool_conservation_witness :
    (pools0.getD 0 dPool).free_count + allocatedCount (pools0.getD 0 dPool) ∅ =
      (pools0.getD 0 dPool).block_count := by
  have h := sf2000_C3_pool_conservation pools0 ∅
    (Reach.init msW rfl (by decide) (by decide))
  exact h (pools0.getD 0 dPool) (by decide)

set_option maxRecDepth 100000 in
/-- C4 counterexample: after initialization, the sequence allocate 4096,
allocate 4096, free 528384, free 528384 (a double free of the first block
while the pool is not yet full) leaves the 4096-byte pool's active free-list
prefix as the duplicated [1, 1]. -/
theorem sf2000_C4_counterexample :
    (((runOps pools0 cexOps).getD 7 dPool).free_list.getD []).take
        ((runOps pools0 cexOps).getD 7 dPool).free_count = [1, 1] ∧
    ¬ ([1, 1] : List ℕ).Nodup := by
  exact ⟨by decide, by decide⟩

/-- C4 (amended): free_count ≤ block_count holds after initialization along
every sequence of Allocate and Free calls; the pairwise-distinctness of the
active free-list prefix, with entries in [0, block_count), holds along every
such sequence in which no pointer is freed twice. -/
theorem sf2000_C4_free_list_invariant :
    (∀ (ms : List (Option ℕ)) (ops : List MemOp),
       ∀ p ∈ runOps (sf2000_memory_pools_init ms) ops,
         p.free_count ≤ p.block_count) ∧
    (∀ pools live, Reach pools live →
       ∀ p ∈ pools, p.free_count ≤ p.block_count ∧
         ∃ fl, p.free_list = some fl ∧ (fl.take p.free_count).Nodup ∧
           ∀ i ∈ fl.take p.free_count, i < p.block_count) := by
  constructor
  · intro ms ops
    exact runOps_fc_le ops _ (init_fc_le ms)
  · intro pools live h p hp
    have hi := reach_inv pools live h
    obtain ⟨_, _, hfcle, fl, hfl, _, hnd, hmemb, _⟩ := hi.1 p hp
    exact ⟨hfcle, fl, hfl, hnd, hmemb⟩

set_option maxRecDepth 100000 in
/-- Witness for C4 at the freshly initialized state. -/
theorem sf2000_C4_free_list_invariant_witness :
    (((pools0.getD 0 dPool).free_list.getD []).take
        (pools0.getD 0 dPool).free_count).Nodup := by
  obtain ⟨_, fl, hfl, hnd, _⟩ :=
    (sf2000_C4_free_list_invariant.2 pools0 ∅
      (Reach.init msW rfl (by decide) (by decide))) (pools0.getD 0 dPool) (by decide)
  rw [hfl]
  exact hnd

/-- C5: sf2000_free_fast is a no-op on a null pointer; and when the pointer
falls in the span of the first owning pool but that pool's free_count already
equals block_count, the push is silently dropped and the whole pool list is
returned unchanged. -/
theorem sf2000_C5_free_defensive :
    (∀ pools, sf2000_free_fast pools 0 = pools) ∧
    (∀ l1 (p : SF2000_MemoryPool) l2 ptr, ptr ≠ 0 →
       (∀ q ∈ l1, ¬ InSpan q ptr) → InSpan p ptr →
       p.free_count = p.block_count →
       sf2000_free_fast (l1 ++ p :: l2) ptr = l1 ++ p :: l2) := by
  constructor
  · exact free_fast_null
  · intro l1 p l2 ptr h0 hl1 hsp hfc
    unfold sf2000_free_fast
    rw [if_neg h0, free_scan_first_match l1 p l2 ptr hl1 hsp, if_neg (by omega)]

set_option maxRecDepth 100000 in
/-- Witness for C5: freeing the base of the full (freshly initialized) 32-byte
pool leaves everything unchanged. -/
theorem sf2000_C5_free_defensive_witness :
    sf2000_free_fast ([] ++ pool_init 32 256 (some 65536) :: pools0tail) 65536 =
      [] ++ pool_init 32 256 (some 65536) :: pools0tail :=
  sf2000_C5_free_defensive.2 [] (pool_init 32 256 (some 65536)) pools0tail 65536
    (by decide) (fun q hq => absurd hq (List.not_mem_nil q)) (by decide) (by decide)

/-- C6: for non-overlapping regions (and any byte count up to 4096 and any
alignments), sf2000_memcpy_aligned leaves the destination byte-identical to
the naive byte-wise copy, and sf2000_memset_aligned sets every destination
byte to the (byte-sized) fill value. -/
theorem sf2000_C6_copy_fill_correct :
    (∀ (m : Mem) (d s n : ℕ), n ≤ 4096 → (s + n ≤ d ∨ d + n ≤ s) →
       sf2000_memcpy_aligned m d s n = naiveCopy m d s n) ∧
    (∀ (m : Mem) (d v n : ℕ), n ≤ 4096 → v < 256 →
       sf2000_memset_aligned m d v n = naiveFill m d v n) :=
  ⟨fun m d s n _ hd => mcpy_eq_naive m d s n hd,
   fun m d v n _ hv => memset_eq m d v n hv⟩

/-- Witness for C6 on a 10-byte copy and a 9-byte fill. -/
theorem sf2000_C6_copy_fill_correct_witness :
    sf2000_memcpy_aligned memV 64 0 10 = naiveCopy memV 64 0 10 ∧
    sf2000_memset_aligned memV 100 7 9 = naiveFill memV 100 7 9 :=
  ⟨sf2000_C6_copy_fill_correct.1 memV 64 0 10 (by decide) (Or.inl (by decide)),
   sf2000_C6_copy_fill_correct.2 memV 100 7 9 (by decide) (by decide)⟩

/-- C7: for every byte count, alignment and non-overlapping regions,
sf2000_memcpy_burst produces exactly the same destination contents as
sf2000_memcpy_aligned (the equality in fact holds unconditionally). -/
theorem sf2000_C7_burst_equiv :
    ∀ (m : Mem) (d s n : ℕ), (s + n ≤ d ∨ d + n ≤ s) →
      sf2000_memcpy_burst m d s n = sf2000_memcpy_aligned m d s n :=
  fun m d s n _ => burst_eq_core m d s n

/-- Witness for C7 on a 100-byte burst copy. -/
theorem sf2000_C7_burst_equiv_witness :
    sf2000_memcpy_burst memV 256 0 100 = sf2000_memcpy_aligned memV 256 0 100 :=
  sf2000_C7_burst_equiv memV 256 0 100 (Or.inl (by decide))

/-- C10: sf2000_memory_reset zeroes exactly the ROM cache and the slot-state
arrays; the pool set is untouched, so Allocate and Free behave identically
before and after a reset. -/
theorem sf2000_C10_reset_preserves_pools :
    ∀ s : SF2000_MemoryState,
      (sf2000_memory_reset s).pools = s.pools ∧
      (sf2000_memory_reset s).rom_cache = List.replicate 16 zeroRomInfo ∧
      (sf2000_memory_reset s).slot_states = List.replicate 4 zeroSlotState ∧
      (∀ ptr, sf2000_free_fast (sf2000_memory_reset s).pools ptr =
        sf2000_free_fast s.pools ptr) ∧
      (∀ sz, sf2000_malloc_fast (sf2000_memory_reset s).pools sz =
        sf2000_malloc_fast s.pools sz) :=
  fun _ => ⟨rfl, rfl, rfl, fun _ => rfl, fun _ => rfl⟩

/-- C8 (amended): the loader returns the null-buffer/zero-size sentinel
exactly when fopen fails, the file length is 0, the length exceeds
SF2000_MAX_ROM_SIZE, the buffer allocation returns null, or some chunk read
comes up short (in which case the buffer is released back with
sf2000_free_fast); on success it returns the exact file length and a buffer
whose first L bytes match the file byte-for-byte. -/
theorem sf2000_C8_load_errors (env : LoadEnv) (pools : List SF2000_MemoryPool)
    (mem : Mem) :
    (env.file = none →
       (sf2000_rom_load_optimized env pools mem).ptr = 0 ∧
       (sf2000_rom_load_optimized env pools mem).size = 0) ∧
    (∀ bytes, env.file = some bytes →
       (((sf2000_rom_load_optimized env pools mem).ptr = 0 ∧
          (sf2000_rom_load_optimized env pools mem).size = 0) ↔
         (bytes.length = 0 ∨ SF2000_MAX_ROM_SIZE < bytes.length ∨
          (mallocFastExt env pools (bytes.length + SF2000_CACHE_LINE_SIZE)).2 = 0 ∨
          hasShortRead env bytes.length)) ∧
       ((sf2000_rom_load_optimized env pools mem).ptr ≠ 0 →
         (sf2000_rom_load_optimized env pools mem).size = bytes.length ∧
         ∀ i, i < bytes.length →
           (sf2000_rom_load_optimized env pools mem).mem
             ((sf2000_rom_load_optimized env pools mem).ptr + i) = bytes.getD i 0) ∧
       (hasShortRead env bytes.length → 0 < bytes.length →
         bytes.length ≤ SF2000_MAX_ROM_SIZE →
         (mallocFastExt env pools (bytes.length + SF2000_CACHE_LINE_SIZE)).2 ≠ 0 →
         (sf2000_rom_load_optimized env pools mem).pools =
           sf2000_free_fast
             (mallocFastExt env pools (bytes.length + SF2000_CACHE_LINE_SIZE)).1
             (mallocFastExt env pools (bytes.length + SF2000_CACHE_LINE_SIZE)).2)) := by
  constructor
  · intro hf
    rw [load_eq_none env pools mem hf]
    exact ⟨rfl, rfl⟩
  · intro bytes hf
    rw [load_eq_some env pools mem bytes hf]
    simp only [sf2000_rom_load_body]
    by_cases hlen : bytes.length = 0 ∨ SF2000_MAX_ROM_SIZE < bytes.length
    · rw [if_pos hlen]
      refine ⟨iff_of_true ⟨rfl, rfl⟩ ?_, ?_, ?_⟩
      · rcases hlen with h | h
        · exact Or.inl h
        · exact Or.inr (Or.inl h)
      · intro hptr
        exact absurd rfl hptr
      · intro _ h1 h2 _
        exfalso
        omega
    · rw [if_neg hlen]
      have hlen0 : bytes.length ≠ 0 := fun h => hlen (Or.inl h)
      have hlenle : ¬ SF2000_MAX_ROM_SIZE < bytes.length := fun h => hlen (Or.inr h)
      by_cases hbuf : (mallocFastExt env pools (bytes.length + SF2000_CACHE_LINE_SIZE)).2 = 0
      · rw [if_pos hbuf]
        refine ⟨iff_of_true ⟨rfl, rfl⟩ (Or.inr (Or.inr (Or.inl hbuf))), ?_, ?_⟩
        · intro hptr
          exact absurd rfl hptr
        · intro _ _ _ hbuf2
          exact absurd hbuf hbuf2
      · rw [if_neg hbuf]
        have hiff := readLoopF_false_iff env bytes
          (sf2000_align_up (mallocFastExt env pools
            (bytes.length + SF2000_CACHE_LINE_SIZE)).2)
          bytes.length bytes.length mem 0 0 (Nat.le_refl _)
        by_cases hrdb : (readLoopF env bytes bytes.length mem
            (sf2000_align_up (mallocFastExt env pools
              (bytes.length + SF2000_CACHE_LINE_SIZE)).2) 0 bytes.length 0).2 = true
        · rw [if_pos hrdb]
          have hnoshort : ¬ hasShortRead env bytes.length := by
            rw [hasShortRead_iff, ← hiff]
            simp [hrdb]
          refine ⟨?_, ?_, ?_⟩
          · refine iff_of_false ?_ ?_
            · rintro ⟨_, hsz⟩
              exact hlen0 hsz
            · rintro (h | h | h | h)
              · exact hlen0 h
              · exact hlenle h
              · exact hbuf h
              · exact hnoshort h
          · intro _
            refine ⟨rfl, ?_⟩
            intro i hi
            obtain ⟨_, hin⟩ := readLoopF_spec env bytes
              (sf2000_align_up (mallocFastExt env pools
                (bytes.length + SF2000_CACHE_LINE_SIZE)).2)
              bytes.length bytes.length mem 0 0 (Nat.le_refl _) (by omega) hrdb
            have hgot := hin i hi
            have haddr : sf2000_align_up (mallocFastExt env pools
                (bytes.length + SF2000_CACHE_LINE_SIZE)).2 + 0 + i =
              sf2000_align_up (mallocFastExt env pools
                (bytes.length + SF2000_CACHE_LINE_SIZE)).2 + i := by omega
            have hpos : (0 : ℕ) + i = i := by omega
            rw [haddr, hpos] at hgot
            exact hgot
          · intro hshort _ _ _
            exact absurd hshort hnoshort
        · rw [if_neg hrdb]
          have hrdf : (readLoopF env bytes bytes.length mem
              (sf2000_align_up (mallocFastExt env pools
                (bytes.length + SF2000_CACHE_LINE_SIZE)).2) 0 bytes.length 0).2 = false := by
            revert hrdb
            cases (readLoopF env bytes bytes.length mem
              (sf2000_align_up (mallocFastExt env pools
                (bytes.length + SF2000_CACHE_LINE_SIZE)).2) 0 bytes.length 0).2 <;> simp
          have hshort : hasShortRead env bytes.length := by
            rw [hasShortRead_iff]
            exact hiff.mp hrdf
          refine ⟨iff_of_true ⟨rfl, rfl⟩ (Or.inr (Or.inr (Or.inr hshort))), ?_, ?_⟩
          · intro hptr
            exact absurd rfl hptr
          · intro _ _ _ _
            rfl

set_option maxRecDepth 100000 in
/-- C8 counterexample (to the claim as stated): a readable ten-byte file with
every fread delivering in full, but every pool exhausted and the fallback
malloc out of memory — the loader returns the failure sentinel although the
file opens, its length is neither zero nor over the limit, and no chunk read
is short.  The missed condition is the buffer-allocation failure. -/
theorem sf2000_C8_counterexample :
    (sf2000_rom_load_optimized envNoMem poolsExhausted memZ).ptr = 0 ∧
    (sf2000_rom_load_optimized envNoMem poolsExhausted memZ).size = 0 ∧
    envNoMem.file = some (List.replicate 10 7) ∧
    (List.replicate 10 7).length ≠ 0 ∧
    (List.replicate 10 7).length ≤ SF2000_MAX_ROM_SIZE ∧
    ¬ hasShortRead envNoMem (List.replicate 10 7).length := by
  exact ⟨by decide, by decide, rfl, by decide, by decide, by decide⟩

set_option maxRecDepth 100000 in
/-- Witness for C8 at a concrete environment where allocation fails. -/
theorem sf2000_C8_load_errors_witness :
    ((sf2000_rom_load_optimized envNoMem poolsExhausted memZ).ptr = 0 ∧
      (sf2000_rom_load_optimized envNoMem poolsExhausted memZ).size = 0) ↔
    ((List.replicate 10 7).length = 0 ∨
     SF2000_MAX_ROM_SIZE < (List.replicate 10 7).length ∨
     (mallocFastExt envNoMem poolsExhausted
       ((List.replicate 10 7).length + SF2000_CACHE_LINE_SIZE)).2 = 0 ∨
     hasShortRead envNoMem (List.replicate 10 7).length) :=
  ((sf2000_C8_load_errors envNoMem poolsExhausted memZ).2 (List.replicate 10 7) rfl).1

/-- C9: the loader asks the allocator for length + SF2000_CACHE_LINE_SIZE
bytes, rounds the returned pointer up to the next 32-byte boundary, and the
aligned pointer plus the length never exceeds the end of the allocation:
sf2000_align_up p + L ≤ p + (L + 32) for every base p. -/
theorem sf2000_C9_align_bounds :
    (∀ p L, sf2000_align_up p + L ≤ p + (L + SF2000_CACHE_LINE_SIZE)) ∧
    (∀ env pools mem bytes, env.file = some bytes →
       (sf2000_rom_load_optimized env pools mem).ptr ≠ 0 →
       (sf2000_rom_load_optimized env pools mem).ptr =
         sf2000_align_up
           (mallocFastExt env pools (bytes.length + SF2000_CACHE_LINE_SIZE)).2 ∧
       (sf2000_rom_load_optimized env pools mem).pools =
         (mallocFastExt env pools (bytes.length + SF2000_CACHE_LINE_SIZE)).1 ∧
       (sf2000_rom_load_optimized env pools mem).size = bytes.length ∧
       (sf2000_rom_load_optimized env pools mem).ptr +
           (sf2000_rom_load_optimized env pools mem).size ≤
         (mallocFastExt env pools (bytes.length + SF2000_CACHE_LINE_SIZE)).2 +
           ((sf2000_rom_load_optimized env pools mem).size +
             SF2000_CACHE_LINE_SIZE)) := by
  constructor
  · intro p L
    have h := align_up_le p
    show sf2000_align_up p + L ≤ p + (L + 32)
    omega
  · intro env pools mem bytes hf hptr
    rw [load_eq_some env pools mem bytes hf] at hptr ⊢
    simp only [sf2000_rom_load_body] at hptr ⊢
    split_ifs at hptr ⊢ with h1 h2 h3
    · exact absurd rfl hptr
    · exact absurd rfl hptr
    · refine ⟨rfl, rfl, rfl, ?_⟩
      have h := align_up_le
        (mallocFastExt env pools (bytes.length + SF2000_CACHE_LINE_SIZE)).2
      show sf2000_align_up
          (mallocFastExt env pools (bytes.length + SF2000_CACHE_LINE_SIZE)).2 +
          bytes.length ≤
        (mallocFastExt env pools (bytes.length + SF2000_CACHE_LINE_SIZE)).2 +
          (bytes.length + 32)
      omega
    · exact absurd rfl hptr

set_option maxRecDepth 100000 in
/-- Witness for C9 on a successful three-byte load. -/
theorem sf2000_C9_align_bounds_witness :
    (sf2000_rom_load_optimized envOk pools0 memZ).ptr =
      sf2000_align_up (mallocFastExt envOk pools0
        (([1, 2, 3] : List ℕ).length + SF2000_CACHE_LINE_SIZE)).2 ∧
    (sf2000_rom_load_optimized envOk pools0 memZ).pools =
      (mallocFastExt envOk pools0
        (([1, 2, 3] : List ℕ).length + SF2000_CACHE_LINE_SIZE)).1 ∧
    (sf2000_rom_load_optimized envOk pools0 memZ).size = ([1, 2, 3] : List ℕ).length ∧
    (sf2000_rom_load_optimized envOk pools0 memZ).ptr +
        (sf2000_rom_load_optimized envOk pools0 memZ).size ≤
      (mallocFastExt envOk pools0
        (([1, 2, 3] : List ℕ).length + SF2000_CACHE_LINE_SIZE)).2 +
        ((sf2000_rom_load_optimized envOk pools0 memZ).size + SF2000_CACHE_LINE_SIZE) :=
  sf2000_C9_align_bounds.2 envOk pools0 memZ [1, 2, 3] rfl (by decide)

end SF2000
